import Mathlib

/-!
Verification of the bytecode compiler (src/dm/src/vm/compiler.rs) and the
virtual machine (src/dm/src/vm/vm.rs) of the auxtools VM branch.

The development shallowly embeds both components:
the compiler as fuel-bounded state-threading visitors over the AST fragment
it consumes, the VM as a fuel-bounded interpreter over a Process state, and
Rust `f32` arithmetic as an exact software model of IEEE-754 binary32 on
bit patterns (round-to-nearest, ties-to-even; NaN results use the canonical
quiet-NaN pattern, since IEEE-754 and Rust leave NaN payloads unspecified).
Panics of the Rust code (cursor reads past the buffer end, slice indexing
out of bounds, unwrapped native lookups) are modelled as distinguished
outcomes, separate from the `Err(())` that normally stops the interpreter
loop and from compile-time `Err(String)` failures.
-/

set_option maxRecDepth 8000

namespace Auxtools

/-- One chunking step for `bitlen`: shift out `k` bits when the value needs them. -/
def bitlenStep (k : Nat) (p : Nat × Nat) : Nat × Nat :=
  if 2 ^ k ≤ p.1 then (p.1 / 2 ^ k, p.2 + k) else p

/-- Number of binary digits of a natural number (`bitlen 0 = 0`).
Branch-free binary chunking, exact for all `n < 2^1024` (far above every
value arising from 32-bit float significands and exponents). -/
def bitlen (n : Nat) : Nat :=
  let p := bitlenStep 1 (bitlenStep 2 (bitlenStep 4 (bitlenStep 8 (bitlenStep 16
    (bitlenStep 32 (bitlenStep 64 (bitlenStep 128 (bitlenStep 256 (bitlenStep 256
    (bitlenStep 256 (n, 0)))))))))))
  if p.1 = 0 then p.2 else p.2 + 1

/-- Integer division rounding to nearest, ties to even. -/
def rneDiv (a b : Nat) : Nat :=
  let q := a / b
  let r := a % b
  if 2 * r < b then q
  else if b < 2 * r then q + 1
  else if q % 2 = 0 then q else q + 1

/-- Round the positive rational `num / den` to the nearest IEEE-754 binary32
value (round-to-nearest, ties-to-even), returning the bit pattern with sign
bit `s`. Handles overflow to infinity, gradual underflow and underflow to
(signed) zero. -/
def roundRatF32 (s num den : Nat) : Nat :=
  if num = 0 then s * 2 ^ 31
  else
    let d : Int := (bitlen num : Int) - (bitlen den : Int)
    let big : Bool :=
      if 0 ≤ d then decide (den * 2 ^ d.toNat ≤ num) else decide (den ≤ num * 2 ^ (-d).toNat)
    let ev : Int := if big then d else d - 1
    let q : Int := max (ev - 23) (-149)
    let sig := if 0 ≤ q then rneDiv num (den * 2 ^ q.toNat) else rneDiv (num * 2 ^ (-q).toNat) den
    let sig' := if sig = 2 ^ 24 then 2 ^ 23 else sig
    let q' := if sig = 2 ^ 24 then q + 1 else q
    if sig' < 2 ^ 23 then s * 2 ^ 31 + sig'
    else
      let e : Int := q' + 150
      if 255 ≤ e then s * 2 ^ 31 + 0x7F800000
      else s * 2 ^ 31 + e.toNat * 2 ^ 23 + (sig' - 2 ^ 23)

/-- Round the value `R * 2^E` (with sign bit `s`) to binary32. -/
def roundScaledF32 (s R : Nat) (E : Int) : Nat :=
  if 0 ≤ E then roundRatF32 s (R * 2 ^ E.toNat) 1 else roundRatF32 s R (2 ^ (-E).toNat)

def f32sign (a : Nat) : Nat := a / 2 ^ 31 % 2
def f32exp (a : Nat) : Nat := a / 2 ^ 23 % 256
def f32frac (a : Nat) : Nat := a % 2 ^ 23

def f32isNaN (a : Nat) : Bool := f32exp a == 255 && f32frac a != 0
def f32isInf (a : Nat) : Bool := f32exp a == 255 && f32frac a == 0

/-- Integer significand of a finite binary32 value. -/
def f32M (a : Nat) : Nat := if f32exp a = 0 then f32frac a else 2 ^ 23 + f32frac a

/-- Binary exponent of a finite binary32 value, so that it equals `±(f32M a) * 2^(f32E a)`. -/
def f32E (a : Nat) : Int := if f32exp a = 0 then -149 else (f32exp a : Int) - 150

/-- The canonical quiet NaN bit pattern used for NaN results of this model.
(IEEE-754 leaves NaN payloads unspecified; the source's Rust float operations
produce some platform NaN.) -/
def f32qNaN : Nat := 0x7FC00000

def f32infWith (s : Nat) : Nat := s * 2 ^ 31 + 0x7F800000
def f32zeroWith (s : Nat) : Nat := s * 2 ^ 31

/-- Flip the sign bit of a binary32 bit pattern. -/
def f32neg (a : Nat) : Nat := if a < 2 ^ 31 then a + 2 ^ 31 else a - 2 ^ 31

/-- IEEE-754 binary32 addition (round-to-nearest-even) on bit patterns. -/
def f32add (a b : Nat) : Nat :=
  if f32isNaN a || f32isNaN b then f32qNaN
  else if f32isInf a then
    if f32isInf b && f32sign a ≠ f32sign b then f32qNaN else a
  else if f32isInf b then b
  else if f32M a = 0 && f32M b = 0 then
    if f32sign a = 1 && f32sign b = 1 then f32zeroWith 1 else 0
  else if f32M a = 0 then b
  else if f32M b = 0 then a
  else
    let E := min (f32E a) (f32E b)
    let A := f32M a * 2 ^ (f32E a - E).toNat
    let B := f32M b * 2 ^ (f32E b - E).toNat
    if f32sign a = f32sign b then roundScaledF32 (f32sign a) (A + B) E
    else if A = B then 0
    else if B < A then roundScaledF32 (f32sign a) (A - B) E
    else roundScaledF32 (f32sign b) (B - A) E

/-- IEEE-754 binary32 subtraction: `a - b = a + (-b)`. -/
def f32sub (a b : Nat) : Nat := f32add a (f32neg b)

/-- IEEE-754 binary32 multiplication on bit patterns. -/
def f32mul (a b : Nat) : Nat :=
  let s := if f32sign a = f32sign b then 0 else 1
  if f32isNaN a || f32isNaN b then f32qNaN
  else if f32isInf a then
    if !f32isInf b && f32M b = 0 then f32qNaN else f32infWith s
  else if f32isInf b then
    if f32M a = 0 then f32qNaN else f32infWith s
  else if f32M a = 0 || f32M b = 0 then f32zeroWith s
  else roundScaledF32 s (f32M a * f32M b) (f32E a + f32E b)

/-- IEEE-754 binary32 division on bit patterns (division by zero gives
±infinity, `0/0` and `inf/inf` give NaN). -/
def f32div (a b : Nat) : Nat :=
  let s := if f32sign a = f32sign b then 0 else 1
  if f32isNaN a || f32isNaN b then f32qNaN
  else if f32isInf a then
    if f32isInf b then f32qNaN else f32infWith s
  else if f32isInf b then f32zeroWith s
  else if f32M b = 0 then
    if f32M a = 0 then f32qNaN else f32infWith s
  else if f32M a = 0 then f32zeroWith s
  else
    let E := f32E a - f32E b
    if 0 ≤ E then roundRatF32 s (f32M a * 2 ^ E.toNat) (f32M b)
    else roundRatF32 s (f32M a) (f32M b * 2 ^ (-E).toNat)

/-- IEEE-754 binary32 comparison; `none` when either operand is NaN
(unordered). `+0` and `-0` compare equal. -/
def f32cmp (a b : Nat) : Option Ordering :=
  if f32isNaN a || f32isNaN b then none
  else if f32isInf a && f32isInf b then
    some (if f32sign a = f32sign b then .eq else if f32sign a = 1 then .lt else .gt)
  else if f32isInf a then some (if f32sign a = 1 then .lt else .gt)
  else if f32isInf b then some (if f32sign b = 1 then .gt else .lt)
  else if f32M a = 0 && f32M b = 0 then some .eq
  else if f32M a = 0 then some (if f32sign b = 1 then .gt else .lt)
  else if f32M b = 0 then some (if f32sign a = 1 then .lt else .gt)
  else if f32sign a ≠ f32sign b then some (if f32sign a = 1 then .lt else .gt)
  else
    let E := min (f32E a) (f32E b)
    let A := f32M a * 2 ^ (f32E a - E).toNat
    let B := f32M b * 2 ^ (f32E b - E).toNat
    let mag : Ordering := if A < B then .lt else if A = B then .eq else .gt
    some (if f32sign a = 1 then mag.swap else mag)

def f32lt (a b : Nat) : Bool := f32cmp a b == some .lt
def f32le (a b : Nat) : Bool := f32cmp a b == some .lt || f32cmp a b == some .eq
def f32eq (a b : Nat) : Bool := f32cmp a b == some .eq
def f32ge (a b : Nat) : Bool := f32cmp a b == some .gt || f32cmp a b == some .eq
def f32gt (a b : Nat) : Bool := f32cmp a b == some .gt

/-- The binary32 bit pattern of an integer converted to `f32`
(Rust's `as f32` cast: round-to-nearest, ties-to-even). -/
def intToF32Bits (i : Int) : Nat :=
  if i = 0 then 0
  else if 0 < i then roundRatF32 0 i.toNat 1
  else roundRatF32 1 (-i).toNat 1

/- ===================================================================
   Virtual machine — shallow embedding of src/dm/src/vm/vm.rs
   =================================================================== -/

/-- Opcodes of the VM, in `repr(u8)` declaration order (HALT = 0, ...,
RETURN = 21, INVALID = 22), from vm.rs. -/
inductive Opcode where
  | HALT
  | LOAD_IMMEDIATE
  | LOAD_ARGUMENT
  | LOAD_LOCAL
  | STORE_LOCAL
  | GET_FIELD
  | SET_FIELD
  | ADD
  | SUB
  | MUL
  | DIV
  | LESS_THAN
  | LESS_OR_EQUAL
  | EQUAL
  | GREATER_OR_EQUAL
  | GREATER_THAN
  | JUMP
  | JUMP_TRUE
  | JUMP_FALSE
  | PUSH
  | CALL
  | RETURN
  | INVALID
deriving DecidableEq

/-- Model of `impl From<Opcode> for u8` (the `repr(u8)` discriminant). -/
def Opcode.toByte : Opcode → Nat
  | .HALT => 0
  | .LOAD_IMMEDIATE => 1
  | .LOAD_ARGUMENT => 2
  | .LOAD_LOCAL => 3
  | .STORE_LOCAL => 4
  | .GET_FIELD => 5
  | .SET_FIELD => 6
  | .ADD => 7
  | .SUB => 8
  | .MUL => 9
  | .DIV => 10
  | .LESS_THAN => 11
  | .LESS_OR_EQUAL => 12
  | .EQUAL => 13
  | .GREATER_OR_EQUAL => 14
  | .GREATER_THAN => 15
  | .JUMP => 16
  | .JUMP_TRUE => 17
  | .JUMP_FALSE => 18
  | .PUSH => 19
  | .CALL => 20
  | .RETURN => 21
  | .INVALID => 22

/-- Model of `impl From<u8> for Opcode`: bytes below `INVALID as u8 = 22` are
transmuted to the opcode with that discriminant, all others map to INVALID. -/
def Opcode.fromByte (b : Nat) : Opcode :=
  if b < 22 then
    match b with
    | 0 => .HALT
    | 1 => .LOAD_IMMEDIATE
    | 2 => .LOAD_ARGUMENT
    | 3 => .LOAD_LOCAL
    | 4 => .STORE_LOCAL
    | 5 => .GET_FIELD
    | 6 => .SET_FIELD
    | 7 => .ADD
    | 8 => .SUB
    | 9 => .MUL
    | 10 => .DIV
    | 11 => .LESS_THAN
    | 12 => .LESS_OR_EQUAL
    | 13 => .EQUAL
    | 14 => .GREATER_OR_EQUAL
    | 15 => .GREATER_THAN
    | 16 => .JUMP
    | 17 => .JUMP_TRUE
    | 18 => .JUMP_FALSE
    | 19 => .PUSH
    | 20 => .CALL
    | _ => .RETURN
  else .INVALID

/-- Data of a VM register: a type tag and a payload, both `u32` (vm.rs `Register`). -/
structure Register where
  tag : Nat
  value : Nat
deriving DecidableEq

/-- Model of `impl Default for Register`: tag 0, value 0. -/
def Register.default : Register := { tag := 0, value := 0 }

/-- Constant `NUM_REGISTERS` from vm.rs: the register file and the local slot array
both have 16 slots. -/
def NUM_REGISTERS : Nat := 16

/-- One execution context (vm.rs `Process`): a cursor over a bytecode buffer,
a 16-slot register file, a 16-slot local array, the caller's argument list,
a call-argument stack and the designated return register id. -/
structure Process where
  registers : List Register
  code : List Nat
  pos : Nat
  args : List Register
  locals : List Register
  pid : Nat
  return_register_id : Nat
  call_arg_stack : List Register
deriving DecidableEq

/-- The VM registry (vm.rs `VM`): procedure id → bytecode buffer, plus the
(unused during execution) process table and pid counter. -/
structure VM where
  bytecodes : List (Nat × List Nat)
  current_pid : Nat

/-- The ways the Rust code can panic at run time: an `unwrap()` on a cursor
read past the end of the buffer, a slice index out of bounds (registers,
argument list, locals), or the `unwrap()`s on the native-call fallback path. -/
inductive VmPanic where
  | eof
  | regOOB
  | argOOB
  | localOOB
  | native
deriving DecidableEq

/-- Modelled from the spec: the external host value/object model (§6), which
is not part of the two core source files. `get_variable` is the host field
lookup invoked by GET_FIELD ("resolve a field on a live object handle given
that identifier, returning a tagged value in the same (tag, payload) shape
as Registers"). `native_call` is the native-procedure invocation fallback
("given a procedure identifier and an ordered list of tagged values, execute
the native procedure and return one tagged value, or fail"): the outer
`none` models a procedure id absent from the native model
(`proc::get_proc_by_id` returning `None`), the inner `none` a failing native
call (`.call(..)` returning `Err`); run_program `unwrap`s both, i.e. panics. -/
structure Host where
  get_variable : Register → Nat → Register
  native_call : Nat → Option (List Register → Option Register)

/-- Assoc-list model of a `HashMap` lookup. -/
def lookupAssoc {κ α : Type} [DecidableEq κ] : List (κ × α) → κ → Option α
  | [], _ => none
  | (k, v) :: rest, key => if k = key then some v else lookupAssoc rest key

/-- Assoc-list model of a `HashMap` insert (overwrites an existing key). -/
def insertAssoc {κ α : Type} [DecidableEq κ] : List (κ × α) → κ → α → List (κ × α)
  | [], key, v => [(key, v)]
  | (k, w) :: rest, key, v =>
    if k = key then (k, v) :: rest else (k, w) :: insertAssoc rest key v

/-- Model of `Process::new`: fresh register file and locals (all-zero), cursor at 0,
return register id 0, empty call-argument stack. -/
def Process.new (pid : Nat) (bytecode : List Nat) (args : List Register) : Process :=
  { registers := List.replicate NUM_REGISTERS Register.default
    code := bytecode
    pos := 0
    args := args
    locals := List.replicate NUM_REGISTERS Register.default
    pid := pid
    return_register_id := 0
    call_arg_stack := [] }

/-- Model of `Process::next_byte`: `self.cursor.read_u8().unwrap()` — reading past the
end of the buffer panics. -/
def Process.next_byte (p : Process) : Except VmPanic (Nat × Process) :=
  match p.code[p.pos]? with
  | some b => .ok (b, { p with pos := p.pos + 1 })
  | none => .error .eof

/-- Model of `Process::read_value`: a 4-byte little-endian immediate. -/
def Process.read_value (p : Process) : Except VmPanic (Nat × Process) :=
  match p.code[p.pos]?, p.code[p.pos + 1]?,
        p.code[p.pos + 2]?, p.code[p.pos + 3]? with
  | some b0, some b1, some b2, some b3 =>
    .ok (b0 + 256 * b1 + 65536 * b2 + 16777216 * b3, { p with pos := p.pos + 4 })
  | _, _, _, _ => .error .eof

/-- Model of `Process::read_short`: a 2-byte little-endian value. -/
def Process.read_short (p : Process) : Except VmPanic (Nat × Process) :=
  match p.code[p.pos]?, p.code[p.pos + 1]? with
  | some b0, some b1 => .ok (b0 + 256 * b1, { p with pos := p.pos + 2 })
  | _, _ => .error .eof

/-- Reading `self.registers[i]`: panics when the index is out of the register file. -/
def Process.getReg (p : Process) (i : Nat) : Except VmPanic Register :=
  match p.registers[i]? with
  | some r => .ok r
  | none => .error .regOOB

/-- Writing `self.registers[i]`. -/
def Process.setReg (p : Process) (i : Nat) (r : Register) : Except VmPanic Process :=
  if i < p.registers.length then .ok { p with registers := p.registers.set i r }
  else .error .regOOB

/-- Reading `self.args[i]`. -/
def Process.getArg (p : Process) (i : Nat) : Except VmPanic Register :=
  match p.args[i]? with
  | some r => .ok r
  | none => .error .argOOB

/-- Reading `self.locals[i]`. -/
def Process.getLocal (p : Process) (i : Nat) : Except VmPanic Register :=
  match p.locals[i]? with
  | some r => .ok r
  | none => .error .localOOB

/-- Writing `self.locals[i]`. -/
def Process.setLocal (p : Process) (i : Nat) (r : Register) : Except VmPanic Process :=
  if i < p.locals.length then .ok { p with locals := p.locals.set i r }
  else .error .localOOB

/-- Model of `Process::get_return_value`: `self.registers[self.return_register_id]`. -/
def Process.get_return_value (p : Process) : Except VmPanic Register :=
  p.getReg p.return_register_id

/-- Model of `Process::compare`: both payloads reinterpreted as 32-bit floats and
compared. The `_` arm is `unreachable!` in the source (compare is only
invoked from the five comparison-opcode dispatch arms). -/
def compare (left right : Register) (op : Opcode) : Bool :=
  match op with
  | .LESS_THAN => f32lt left.value right.value
  | .LESS_OR_EQUAL => f32le left.value right.value
  | .EQUAL => f32eq left.value right.value
  | .GREATER_OR_EQUAL => f32ge left.value right.value
  | .GREATER_THAN => f32gt left.value right.value
  | _ => false

/-- The arithmetic applied by `Process::do_math_op`; the `_` arm is
`unreachable!` in the source. -/
def mathResult (op : Opcode) (l r : Nat) : Nat :=
  match op with
  | .ADD => f32add l r
  | .SUB => f32sub l r
  | .MUL => f32mul l r
  | .DIV => f32div l r
  | _ => 0

/-- Model of `Process::do_math_op`: read left, right and destination register
operands, apply the float operation to the two payloads and store the
number-tagged result. -/
def Process.do_math_op (op : Opcode) (p : Process) : Except VmPanic Process := do
  let (lefti, p) ← p.next_byte
  let (righti, p) ← p.next_byte
  let (desti, p) ← p.next_byte
  let lreg ← p.getReg lefti
  let rreg ← p.getReg righti
  p.setReg desti { tag := 0x2A, value := mathResult op lreg.value rreg.value }

/-- The comparison dispatch arm of `Process::execute_one`: read three
register operands, compare the two payloads as floats and store exactly 1.0
or 0.0 (as float bits, number-tagged) in the result register. -/
def Process.do_compare_op (op : Opcode) (p : Process) : Except VmPanic Process := do
  let (left, p) ← p.next_byte
  let (right, p) ← p.next_byte
  let (result, p) ← p.next_byte
  let lreg ← p.getReg left
  let rreg ← p.getReg right
  p.setReg result { tag := 0x2A, value := if compare lreg rreg op then 0x3F800000 else 0 }

/-- Result of `Process::execute_one`: a normally executed instruction
(`Ok(())`), the `Err(())` that stops the interpreter loop, a Rust panic, or
fuel exhaustion of a nested call. -/
inductive StepResult where
  | ok (p : Process)
  | halt (p : Process)
  | panic (e : VmPanic)
  | timeout
deriving DecidableEq

/-- Result of `Process::execute`. -/
inductive ExecResult where
  | done (p : Process)
  | panic (e : VmPanic)
  | timeout
deriving DecidableEq

/-- Result of `VM::run_program`. -/
inductive RunResult where
  | ok (r : Register)
  | panic (e : VmPanic)
  | timeout
deriving DecidableEq

def liftStep : Except VmPanic Process → StepResult
  | .ok p => .ok p
  | .error e => .panic e

/-- Model of `Process::execute_one`: decode one opcode byte and dispatch. `doCall`
stands for the recursive `vm.run_program` invocation performed by CALL (the
fuel is threaded in by `execute`). Opcodes without a dispatch arm in the
source (`HALT`, `SET_FIELD`, `INVALID`) return `Err(())`, i.e. halt. -/
def execute_one (host : Host) (doCall : Nat → List Register → RunResult)
    (p : Process) : StepResult :=
  match p.next_byte with
  | .error e => .panic e
  | .ok (b, p) =>
    match Opcode.fromByte b with
    | .LOAD_IMMEDIATE => liftStep do
      let (reg_idx, p) ← p.next_byte
      let (typ, p) ← p.next_byte
      let (val, p) ← p.read_value
      p.setReg reg_idx { tag := typ, value := val }
    | .LOAD_ARGUMENT => liftStep do
      let (arg_index, p) ← p.next_byte
      let (dest_index, p) ← p.next_byte
      let arg ← p.getArg arg_index
      p.setReg dest_index arg
    | .LOAD_LOCAL => liftStep do
      let (local_index, p) ← p.next_byte
      let (dest_index, p) ← p.next_byte
      let l ← p.getLocal local_index
      p.setReg dest_index l
    | .STORE_LOCAL => liftStep do
      let (dest_index, p) ← p.next_byte
      let (local_index, p) ← p.next_byte
      let _ ← p.getLocal local_index
      let d ← p.getReg dest_index
      p.setLocal local_index d
    | .GET_FIELD => liftStep do
      let (source_index, p) ← p.next_byte
      let (field_name, p) ← p.read_short
      let (destination_index, p) ← p.next_byte
      let source ← p.getReg source_index
      p.setReg destination_index (host.get_variable source field_name)
    | .ADD => liftStep (p.do_math_op .ADD)
    | .SUB => liftStep (p.do_math_op .SUB)
    | .MUL => liftStep (p.do_math_op .MUL)
    | .DIV => liftStep (p.do_math_op .DIV)
    | .LESS_THAN => liftStep (p.do_compare_op .LESS_THAN)
    | .LESS_OR_EQUAL => liftStep (p.do_compare_op .LESS_OR_EQUAL)
    | .EQUAL => liftStep (p.do_compare_op .EQUAL)
    | .GREATER_OR_EQUAL => liftStep (p.do_compare_op .GREATER_OR_EQUAL)
    | .GREATER_THAN => liftStep (p.do_compare_op .GREATER_THAN)
    | .JUMP => liftStep do
      let (dest, p) ← p.read_value
      pure { p with pos := dest }
    | .JUMP_TRUE => liftStep do
      let (reg, p) ← p.next_byte
      let (dest, p) ← p.read_value
      let r ← p.getReg reg
      pure (if r.value ≠ 0 then { p with pos := dest } else p)
    | .JUMP_FALSE => liftStep do
      let (reg, p) ← p.next_byte
      let (dest, p) ← p.read_value
      let r ← p.getReg reg
      pure (if r.value = 0 then { p with pos := dest } else p)
    | .PUSH => liftStep do
      let (arg_idx, p) ← p.next_byte
      let r ← p.getReg arg_idx
      pure { p with call_arg_stack := p.call_arg_stack ++ [r] }
    | .CALL =>
      let callArgs := p.call_arg_stack
      let p := { p with call_arg_stack := [] }
      match (do
        let (proc_id, p) ← p.read_value
        let (result_register, p) ← p.next_byte
        Except.ok (proc_id, result_register, p) : Except VmPanic (Nat × Nat × Process)) with
      | .error e => .panic e
      | .ok (proc_id, result_register, p) =>
        match doCall proc_id callArgs with
        | .ok result =>
          liftStep (p.setReg result_register { tag := result.tag, value := result.value })
        | .panic e => .panic e
        | .timeout => .timeout
    | .RETURN => liftStep do
      let (src, p) ← p.next_byte
      pure { p with return_register_id := src }
    | _ => .halt p

mutual

/-- Model of `VM::run_program`: if `id` has a registered buffer, run a fresh Process
over it and return the designated return value; otherwise fall back to the
native procedure model (whose absence or failure panics through `unwrap`).
`fuel` bounds the number of interpreter steps and nested calls (the Rust
loop may diverge on a hand-crafted buffer). -/
def run_program : Nat → Host → VM → Nat → List Register → RunResult
  | 0, _, _, _, _ => .timeout
  | fuel + 1, host, vm, id, args =>
    match lookupAssoc vm.bytecodes id with
    | some code =>
      match execute fuel host vm (Process.new vm.current_pid code args) with
      | .done p =>
        match p.get_return_value with
        | .ok r => .ok r
        | .error e => .panic e
      | .panic e => .panic e
      | .timeout => .timeout
    | none =>
      let value_args := args.map fun a => { tag := a.tag % 256, value := a.value : Register }
      match host.native_call id with
      | none => .panic .native
      | some f =>
        match f value_args with
        | none => .panic .native
        | some res => .ok { tag := res.tag, value := res.value }

/-- Model of `Process::execute`: the `loop` that repeatedly invokes execute_one until it fails. -/
def execute : Nat → Host → VM → Process → ExecResult
  | 0, _, _, _ => .timeout
  | fuel + 1, host, vm, p =>
    match execute_one host (run_program fuel host vm) p with
    | .ok p' => execute fuel host vm p'
    | .halt p' => .done p'
    | .panic e => .panic e
    | .timeout => .timeout

end

/-- Model of `VM::add_program`: register (or silently overwrite) a bytecode buffer. -/
def VM.add_program (vm : VM) (id : Nat) (bytecode : List Nat) : VM :=
  { vm with bytecodes := insertAssoc vm.bytecodes id bytecode }

/- ===================================================================
   Compiler - shallow embedding of src/dm/src/vm/compiler.rs
   The AST mirrors the dreammaker AST fragment the compiler consumes
   (spans erased); every unsupported construct is collapsed into a
   single "unsupported" constructor, matching the catch-all arms of the
   source. The debug payloads interpolated into error messages are
   elided. The recursion of the source is structural on the AST; the
   embedding threads an explicit fuel, so every visitor also has a
   fuel-exhaustion outcome that no sufficiently large fuel reaches.
   =================================================================== -/

/-- Unary operators of the AST. `Expression::Base` carries them but
`visit_term` never examines them (they are silently ignored). -/
inductive UnaryOp where
  | neg
  | not
  | otherUnary
deriving DecidableEq

/-- The binary operators; `otherBinOp` stands for every `BinaryOp` variant
outside the nine the compiler lowers (on which the source `panic!`s). -/
inductive BinOp where
  | add
  | sub
  | mul
  | div
  | less
  | lessEq
  | eq
  | greaterEq
  | greater
  | otherBinOp
deriving DecidableEq

/-- Follows after a term; only single field access is lowered. -/
inductive Follow where
  | field (name : String)
  | unsupportedFollow
deriving DecidableEq

mutual
inductive Expression where
  | base : List UnaryOp → Term → List Follow → Expression
  | binaryOp : BinOp → Expression → Expression → Expression
  | unsupportedExpr : Expression
deriving DecidableEq
inductive Term where
  | int : Int → Term
  | float : Nat → Term
  | ident : String → Term
  | expr : Expression → Term
  | unsupportedTerm : Term
deriving DecidableEq
end

/-- Data of a `var` statement: name and optional initializer. -/
structure VarStatement where
  name : String
  value : Option Expression
deriving DecidableEq

/-- Statements; an if statement carries its arms (condition and block
pairs) and an optional else block. -/
inductive Statement where
  | expr : Expression → Statement
  | ret : Option Expression → Statement
  | var : VarStatement → Statement
  | ifChain : List (Expression × List Statement) → Option (List Statement) → Statement
  | unsupportedStmt : Statement

/-- Compile-time failure: an `Err(String)` or a `panic!` of the source;
`fuelExhausted` is an artifact of the fuel-bounded embedding of the
compiler's recursion (the Rust recursion is structural on the AST, so every
AST has some sufficient fuel). -/
inductive CErr where
  | err (msg : String)
  | panicked (msg : String)
  | fuelExhausted
deriving DecidableEq

instance instDecEqExcept {e a : Type} [DecidableEq e] [DecidableEq a] :
    DecidableEq (Except e a) := fun x y =>
  match x, y with
  | .ok u, .ok v =>
    if h : u = v then .isTrue (by rw [h]) else .isFalse (by intro c; cases c; exact h rfl)
  | .error u, .error v =>
    if h : u = v then .isTrue (by rw [h]) else .isFalse (by intro c; cases c; exact h rfl)
  | .ok _, .error _ => .isFalse (by intro c; cases c)
  | .error _, .ok _ => .isFalse (by intro c; cases c)

/-- Compiler state (`Compiler` minus the borrowed proc): the byte buffer, the
monotonic next-register counter, the shared free-list, and the local and
argument name→register maps. -/
structure CState where
  bytecode : List Nat
  next_free_register : Nat
  free_registers : List Nat
  locals : List (String × Nat)
  args : List (String × Nat)
deriving DecidableEq

/-- Model of `RegisterId::to_id`: `self.id as u8`. -/
def toId (id : Nat) : Nat := id % 256

/-- Encoding of a 4-byte little-endian value (`to_le_bytes` truncated to 4 bytes). -/
def le32 (n : Nat) : List Nat :=
  [n % 256, n / 256 % 256, n / 65536 % 256, n / 16777216 % 256]

/-- Encoding of a 2-byte little-endian value. -/
def le16 (n : Nat) : List Nat := [n % 256, n / 256 % 256]

/-- Model of `Compiler::get_free_register`: if the free-list is non-empty, take the
element at index 0 via `swap_remove(0)` (the last element is moved into its
place); otherwise consume the next monotonic id. -/
def get_free_register (s : CState) : Nat × CState :=
  match s.free_registers with
  | [] =>
    (s.next_free_register, { s with next_free_register := s.next_free_register + 1 })
  | x :: xs =>
    (x, { s with free_registers :=
           match xs.getLast? with
           | none => []
           | some l => l :: xs.dropLast })

/-- Model of `impl Drop for TempRegister`: push the id back onto the shared free-list.
The model performs this explicitly at every point where the Rust value goes
out of scope. -/
def free_register (id : Nat) (s : CState) : CState :=
  { s with free_registers := s.free_registers ++ [id] }

/-- Model of `Compiler::emit`: append bytes to the buffer. -/
def emit (bytes : List Nat) (s : CState) : CState :=
  { s with bytecode := s.bytecode ++ bytes }

/-- Backpatching: `self.bytecode[loc + i] = bytes[i]` (always in range at
every use site: patched locations lie inside previously emitted bytes). -/
def writeBytesAt : List Nat → Nat → List Nat → List Nat
  | code, _, [] => code
  | code, loc, b :: bs => writeBytesAt (code.set loc b) (loc + 1) bs

/-- The arithmetic/comparison opcode for a binary operator; `none` for
operators on which the source `panic!`s. -/
def binOpOpcode : BinOp → Option Opcode
  | .add => some .ADD
  | .sub => some .SUB
  | .mul => some .MUL
  | .div => some .DIV
  | .less => some .LESS_THAN
  | .lessEq => some .LESS_OR_EQUAL
  | .eq => some .EQUAL
  | .greaterEq => some .GREATER_OR_EQUAL
  | .greater => some .GREATER_THAN
  | .otherBinOp => none

/-- The `for follow in follows` loop of `visit_term`'s `Ident` arm: each
field access emits GET_FIELD reusing the base register as destination; any
other follow kind aborts. `intern` models the external host string interning
(`value::Value::from_string(name).value.data.id`), truncated `as u16`. -/
def processFollows (intern : String → Nat) :
    List Follow → Nat → CState → Except CErr (Nat × CState)
  | [], thing, s => .ok (thing, s)
  | .field name :: rest, thing, s =>
    let string_id := intern name % 65536
    let s := emit ([Opcode.GET_FIELD.toByte, toId thing] ++ le16 string_id ++ [toId thing]) s
    processFollows intern rest thing s
  | .unsupportedFollow :: _, _, _ => .error (.err ("Unimplemented follow"))

mutual

/-- Model of `Compiler::visit_expression_impl`. Binary operators lower the left then
the right operand (left to right), then emit the opcode into a fresh result
register; at the end of the arm the right and left temporaries are dropped
(freed), in that order, while the result register is moved out to the
caller. The source recursion is structural; `fuel` bounds its depth. -/
def visit_expression_impl (intern : String → Nat) :
    Nat → Expression → Bool → CState → Except CErr (Nat × CState)
  | 0, _, _, _ => .error .fuelExhausted
  | fuel + 1, .base _unary term follow, is_statement, s =>
    visit_term intern fuel term follow is_statement s
  | fuel + 1, .binaryOp op lhs rhs, _, s =>
    match visit_expression_impl intern fuel lhs false s with
    | .error e => .error e
    | .ok (left_reg, s) =>
      match visit_expression_impl intern fuel rhs false s with
      | .error e => .error e
      | .ok (right_reg, s) =>
        match binOpOpcode op with
        | none => .error (.panicked ("Binop not implemented"))
        | some oper =>
          let (result_reg, s) := get_free_register s
          let s := emit [oper.toByte, toId left_reg, toId right_reg, toId result_reg] s
          let s := free_register right_reg s
          let s := free_register left_reg s
          .ok (result_reg, s)
  | _ + 1, .unsupportedExpr, _, _ => .error (.err ("Unimplemented expression"))

/-- Model of `Compiler::visit_term`. Two quirks of the source are mirrored exactly:
unary operators are ignored, and the follows loop runs only in the `Ident`
arm (follows after literals or parenthesized expressions are silently
dropped). Integer literals are converted with `as f32`, float literals
emitted bit-identically; both are tagged with the number sentinel 0x2A. -/
def visit_term (intern : String → Nat) :
    Nat → Term → List Follow → Bool → CState → Except CErr (Nat × CState)
  | 0, _, _, _, _ => .error .fuelExhausted
  | _ + 1, .int number, _follows, _is_statement, s =>
    let (reg, s) := get_free_register s
    let s := emit ([Opcode.LOAD_IMMEDIATE.toByte, toId reg, 0x2A] ++ le32 (intToF32Bits number)) s
    .ok (reg, s)
  | _ + 1, .float bits, _follows, _is_statement, s =>
    let (reg, s) := get_free_register s
    let s := emit ([Opcode.LOAD_IMMEDIATE.toByte, toId reg, 0x2A] ++ le32 bits) s
    .ok (reg, s)
  | _ + 1, .ident name, follows, _is_statement, s =>
    match lookupAssoc s.args name with
    | some reg =>
      let reg_id := toId reg
      let (target, s) := get_free_register s
      let s := emit [Opcode.LOAD_ARGUMENT.toByte, reg_id, toId target] s
      processFollows intern follows target s
    | none =>
      match lookupAssoc s.locals name with
      | some reg =>
        let reg_id := toId reg
        let (target, s) := get_free_register s
        let s := emit [Opcode.LOAD_LOCAL.toByte, reg_id, toId target] s
        processFollows intern follows target s
      | none => .error (.err ("Unknown identifier: " ++ name))
  | fuel + 1, .expr e, _follows, _is_statement, s =>
    visit_expression_impl intern fuel e false s
  | _ + 1, .unsupportedTerm, _, _, _ => .error (.err ("Unimplemented term"))

/-- Model of `Compiler::visit_expression_statement`: the produced temporary's
`Result` is consumed by the `if let`, so on success the register is dropped
(freed) immediately. -/
def visit_expression_statement (intern : String → Nat) :
    Nat → Expression → CState → Except CErr (Unit × CState)
  | 0, _, _ => .error .fuelExhausted
  | fuel + 1, e, s =>
    match visit_expression_impl intern fuel e true s with
    | .error err => .error err
    | .ok (r, s) => .ok ((), free_register r s)

/-- Model of `Compiler::visit_var`: allocate the next local slot id (the current size
of the locals map), record the name, and lower and store the initializer if
present (its temporary is dropped afterwards). -/
def visit_var (intern : String → Nat) :
    Nat → VarStatement → CState → Except CErr (Unit × CState)
  | 0, _, _ => .error .fuelExhausted
  | fuel + 1, v, s =>
    let local_id := s.locals.length
    let s := { s with locals := insertAssoc s.locals v.name local_id }
    match v.value with
    | none => .ok ((), s)
    | some expr =>
      match visit_expression_impl intern fuel expr false s with
      | .error e => .error e
      | .ok (src_reg, s) =>
        let s := emit [Opcode.STORE_LOCAL.toByte, toId src_reg, local_id % 256] s
        .ok ((), free_register src_reg s)

/-- Model of `Compiler::visit_statement`. Bare-expression, `return <expr>`, `var` and
`if` statements are lowered; everything else (including `return` without a
value expression) is "Unsupported statement". -/
def visit_statement (intern : String → Nat) :
    Nat → Statement → CState → Except CErr (Unit × CState)
  | 0, _, _ => .error .fuelExhausted
  | fuel + 1, .expr e, s => visit_expression_statement intern fuel e s
  | fuel + 1, .ret (some e), s =>
    match visit_expression_impl intern fuel e false s with
    | .error err => .error err
    | .ok (return_reg, s) =>
      let s := emit [Opcode.RETURN.toByte, toId return_reg] s
      .ok ((), free_register return_reg s)
  | fuel + 1, .var v, s => visit_var intern fuel v s
  | fuel + 1, .ifChain arms else_arm, s =>
    match visit_if_arms intern fuel arms else_arm [] s with
    | .error e => .error e
    | .ok (patch_after_else, s) =>
      match else_arm with
      | none => .ok ((), s)
      | some blk =>
        match visit_block intern fuel blk s with
        | .error e => .error e
        | .ok ((), s) =>
          let target := s.bytecode.length
          .ok ((), { s with bytecode :=
            patch_after_else.foldl (fun c loc => writeBytesAt c loc (le32 target)) s.bytecode })
  | _ + 1, .ret none, _ => .error (.err ("Unsupported statement"))
  | _ + 1, .unsupportedStmt, _ => .error (.err ("Unsupported statement"))

/-- Model of `Compiler::visit_block`: lower the statements in order, aborting on the
first failure. -/
def visit_block (intern : String → Nat) :
    Nat → List Statement → CState → Except CErr (Unit × CState)
  | 0, _, _ => .error .fuelExhausted
  | _ + 1, [], s => .ok ((), s)
  | fuel + 1, stmt :: rest, s =>
    match visit_statement intern fuel stmt s with
    | .error e => .error e
    | .ok ((), s) => visit_block intern fuel rest s

/-- The per-arm loop of `Compiler::visit_if`: lower the condition, emit a
JUMP_FALSE placeholder, lower the arm's block, emit (only when an else block
exists) a JUMP placeholder whose operand location is recorded in
`patch_after_else`, then backpatch the JUMP_FALSE operand to the current
buffer end; the condition temporary is dropped at the end of the iteration. -/
def visit_if_arms (intern : String → Nat) :
    Nat → List (Expression × List Statement) → Option (List Statement) →
    List Nat → CState → Except CErr (List Nat × CState)
  | 0, _, _, _, _ => .error .fuelExhausted
  | _ + 1, [], _, acc, s => .ok (acc, s)
  | fuel + 1, (condition, block) :: rest, else_arm, acc, s =>
    match visit_expression_impl intern fuel condition false s with
    | .error e => .error e
    | .ok (check_reg, s) =>
      let s := emit [Opcode.JUMP_FALSE.toByte, toId check_reg, 0, 0, 0, 0] s
      let jump_location := s.bytecode.length - 4
      match visit_block intern fuel block s with
      | .error e => .error e
      | .ok ((), s) =>
        let accs :=
          if else_arm.isSome then
            let s2 := emit [Opcode.JUMP.toByte, 0, 0, 0, 0] s
            (acc ++ [s2.bytecode.length - 4], s2)
          else (acc, s)
        let acc := accs.1
        let s := accs.2
        let s := { s with bytecode := writeBytesAt s.bytecode jump_location (le32 s.bytecode.length) }
        let s := free_register check_reg s
        visit_if_arms intern fuel rest else_arm acc s

end

/-- Model of `Compiler::visit_expression`, which is `visit_expression_impl(expr, false)`. -/
def visit_expression (intern : String → Nat) (fuel : Nat) (e : Expression) (s : CState) :
    Except CErr (Nat × CState) :=
  visit_expression_impl intern fuel e false s

/-- Model of `Compiler::visit_if` (inlined into `visit_statement`'s `ifChain` arm
above, and stated here as its own definition): the arm loop followed by the
optional else block and the end-of-chain backpatches. -/
def visit_if (intern : String → Nat) (fuel : Nat)
    (arms : List (Expression × List Statement)) (else_arm : Option (List Statement))
    (s : CState) : Except CErr (Unit × CState) :=
  match visit_if_arms intern fuel arms else_arm [] s with
  | .error e => .error e
  | .ok (patch_after_else, s) =>
    match else_arm with
    | none => .ok ((), s)
    | some blk =>
      match visit_block intern fuel blk s with
      | .error e => .error e
      | .ok ((), s) =>
        let target := s.bytecode.length
        .ok ((), { s with bytecode :=
          patch_after_else.foldl (fun c loc => writeBytesAt c loc (le32 target)) s.bytecode })

/-- The argument map built by `Compiler::new`: parameter names mapped to
their positions (`enumerate`), later duplicates overwriting earlier ones
(`HashMap` collect semantics). -/
def buildArgs (params : List String) : List (String × Nat) :=
  (params.zip (List.range params.length)).foldl (fun m pr => insertAssoc m pr.1 pr.2) []

/-- The initial compiler state built by `Compiler::new`. -/
def initState (parameters : List String) : CState :=
  { bytecode := [], next_free_register := 0, free_registers := [],
    locals := [], args := buildArgs parameters }

/-- Model of `Compiler::new` followed by `Compiler::compile`: compile one procedure body given
its parameter names in declaration order, yielding the finished byte buffer.
No terminator byte is ever appended. -/
def compile (intern : String → Nat) (fuel : Nat) (parameters : List String)
    (body : List Statement) : Except CErr (List Nat) :=
  match visit_block intern fuel body (initState parameters) with
  | .error e => .error e
  | .ok ((), s) => .ok s.bytecode

/- ===================================================================
   Concrete material and specification predicates used by the claim
   theorems below.
   =================================================================== -/

/-- Host for concrete runs: every field resolves to the all-zero register
and no native procedure exists. -/
def testHost : Host :=
  { get_variable := fun _ _ => Register.default, native_call := fun _ => none }

/-- Interning function for compilations that use no field names. -/
def noIntern : String → Nat := fun _ => 0

/-- Shorthand for an integer literal expression. -/
def litE (n : Int) : Expression := .base [] (.int n) []

/-- Shorthand for an addition expression. -/
def addE (a b : Expression) : Expression := .binaryOp .add a b

/-- Right-nested addition with `n + 1` literal leaves; evaluating the leaf
of `rightNest 16` needs 17 simultaneously live temporaries. -/
def rightNest : Nat → Expression
  | 0 => litE 99
  | n + 1 => addE (litE (Int.ofNat n + 1)) (rightNest n)

/-- Compile a body with `compile`, register the buffer under id 1 in a fresh
VM and run it with the given arguments (`none` when compilation fails). -/
def compileAndRun (cfuel rfuel : Nat) (host : Host) (intern : String → Nat)
    (params : List String) (body : List Statement) (args : List Register) : Option RunResult :=
  match compile intern cfuel params body with
  | .ok bc => some (run_program rfuel host { bytecodes := [(1, bc)], current_pid := 0 } 1 args)
  | .error _ => none

/-- The buffer the compiler produces for the one-statement body
`return L;` with an integer literal `L`: LOAD_IMMEDIATE of register 0 with
the number tag and the f32 bits of `L`, then RETURN of register 0 — and no
terminator byte. -/
def retIntBytecode (L : Int) : List Nat :=
  [1, 0, 0x2A] ++ le32 (intToF32Bits L) ++ [21, 0]

/-- The buffer produced for `return L;` with a float literal of bit
pattern `bits`. -/
def retFloatBytecode (bits : Nat) : List Nat :=
  [1, 0, 0x2A] ++ le32 bits ++ [21, 0]

/-- A fresh VM with a single program registered under id 1. -/
def oneProgVM (bc : List Nat) : VM := { bytecodes := [(1, bc)], current_pid := 0 }

/-- The body `return (17-leaf right-nested addition);`. -/
def deepBody : List Statement := [.ret (some (rightNest 16))]

/-- Two sequential statements with non-overlapping temporaries; compiling
them exercises free-list recovery and reuse. -/
def reuseBody : List Statement :=
  [.expr (addE (litE 1) (litE 2)), .ret (some (addE (litE 3) (litE 4)))]

/-- Buffer-growth relation: `b` extends `a` without changing any byte of
`a` (the compiler only appends, and only backpatches bytes it appended
after the point in question). -/
def PrefixPreserved (a b : List Nat) : Prop :=
  a.length ≤ b.length ∧ ∀ i, i < a.length → b[i]? = a[i]?

/-- Slice of `n` bytes of `code` starting at `loc`. -/
def bytesAt (code : List Nat) (loc n : Nat) : List Nat := (code.drop loc).take n

/-- Bytes the dispatcher of `execute_one` does not implement as an
instruction-with-effects case: the halt opcode (0), the reserved SET_FIELD
opcode (6), and every byte decoding to INVALID (22 and above). Reading one
of these is the interpreter loop's only termination condition. -/
def undecodedByte (b : Nat) : Prop := b = 0 ∨ b = 6 ∨ 22 ≤ b

/-- Specification of the backpatched layout of one lowered if/else-if/else
chain inside the finished buffer `code` (claim C8). Starting at `pos`, each
arm occupies its lowered condition, a 6-byte JUMP_FALSE instruction at
`jfPos` (opcode, condition register byte, 4 target bytes), its lowered
block, and — only when an else block exists — a 5-byte end-of-chain JUMP
placeholder. The JUMP_FALSE target bytes hold, little-endian, the buffer
position immediately after the arm (which is the start of the next arm's
condition, of the else block, or of what follows the chain), a strictly
forward target; `ejs` collects the operand locations of the end-of-chain
JUMPs in emission order, for the caller to patch to the final buffer end. -/
inductive ArmsPatched (code : List Nat) (hasElse : Bool) :
    Nat → List (Expression × List Statement) → Nat → List Nat → Prop where
  | nil : ∀ pos, ArmsPatched code hasElse pos [] pos []
  | cons : ∀ pos cond blk rest condLen blkLen jfPos armEnd chainEnd ejs,
      jfPos = pos + condLen →
      armEnd = jfPos + 6 + blkLen + (if hasElse then 5 else 0) →
      code[jfPos]? = some Opcode.JUMP_FALSE.toByte →
      bytesAt code (jfPos + 2) 4 = le32 armEnd →
      jfPos < armEnd →
      (hasElse = true → code[armEnd - 5]? = some Opcode.JUMP.toByte) →
      ArmsPatched code hasElse armEnd rest chainEnd ejs →
      ArmsPatched code hasElse pos ((cond, blk) :: rest) chainEnd
        (if hasElse then (armEnd - 4) :: ejs else ejs)

/- ===================================================================
   Helper lemmas
   =================================================================== -/

theorem visit_block_ret_none_fails (body : List Statement)
    (h : Statement.ret none ∈ body) :
    ∀ (intern : String → Nat) (fuel : Nat) (s : CState) (u : Unit × CState),
      visit_block intern fuel body s ≠ .ok u := by
  induction body with
  | nil => cases h
  | cons stmt rest ih =>
    intro intern fuel s u
    match fuel with
    | 0 => simp [visit_block]
    | fuel + 1 =>
      rcases List.mem_cons.mp h with h1 | h2
      · subst h1
        match fuel with
        | 0 => simp [visit_block, visit_statement]
        | fuel + 1 => simp [visit_block, visit_statement]
      · simp only [visit_block]
        cases hv : visit_statement intern fuel stmt s with
        | error e => simp
        | ok pr =>
          obtain ⟨u', s'⟩ := pr
          cases u'
          exact ih h2 intern fuel s' u

/- ===================================================================
   Claim theorems
   =================================================================== -/

/-- C9: when `id` has no registered bytecode buffer and the native model
knows no procedure for it, `run_program` fails at run time (the unwrap on
`get_proc_by_id` panics) and in particular never silently produces a
return value. -/
theorem C9_unknown_id_fails (fuel : Nat) (host : Host) (vm : VM) (id : Nat)
    (args : List Register)
    (hbc : lookupAssoc vm.bytecodes id = none)
    (hnat : host.native_call id = none) :
    run_program (fuel + 1) host vm id args = .panic .native ∧
    ∀ r, run_program (fuel + 1) host vm id args ≠ .ok r := by
  refine ⟨?_, ?_⟩ <;> simp [run_program, hbc, hnat]

theorem C9_unknown_id_fails_witness :
    run_program 5 testHost { bytecodes := [], current_pid := 0 } 7 [] = .panic .native ∧
    run_program 5 testHost { bytecodes := [], current_pid := 0 } 7 [] ≠
      .ok { tag := 0, value := 0 } := by
  have h := C9_unknown_id_fails 4 testHost { bytecodes := [], current_pid := 0 } 7 [] rfl rfl
  exact ⟨h.1, h.2 _⟩

/-- C10: a `return` statement with no value expression is rejected by the
statement lowering with an "Unsupported statement" error, and any procedure
body containing one never compiles successfully. -/
theorem C10_bare_return_unsupported :
    (∀ (intern : String → Nat) (fuel : Nat) (s : CState),
      visit_statement intern (fuel + 1) (.ret none) s =
        .error (.err ("Unsupported statement"))) ∧
    (∀ (intern : String → Nat) (fuel : Nat) (params : List String)
        (body : List Statement), Statement.ret none ∈ body →
      ∀ bc, compile intern fuel params body ≠ .ok bc) := by
  constructor
  · intro intern fuel s; rfl
  · intro intern fuel params body hmem bc hc
    unfold compile at hc
    cases hv : visit_block intern fuel body (initState params) with
    | error e => rw [hv] at hc; cases hc
    | ok pr => exact visit_block_ret_none_fails body hmem intern fuel (initState params) pr hv

theorem C10_bare_return_unsupported_witness :
    visit_statement noIntern 5 (.ret none) (initState []) =
      .error (.err ("Unsupported statement")) ∧
    compile noIntern 9 [] [Statement.ret none] ≠ .ok [] :=
  ⟨C10_bare_return_unsupported.1 noIntern 4 (initState []),
   C10_bare_return_unsupported.2 noIntern 9 [] [Statement.ret none] (by simp) []⟩

/-- C2 counterexample: a reachable allocator state (obtained by compiling
the expression `1 + 2` from a fresh compiler) has free-list `[1, 0]`; its
smallest id is 0, yet acquiring a register returns 1 — `swap_remove(0)`
takes the front element, not the minimum. -/
theorem C2_counterexample :
    ∃ s' : CState,
      visit_expression noIntern 9 (addE (litE 1) (litE 2)) (initState []) = .ok (2, s') ∧
      s'.free_registers = [1, 0] ∧
      s'.free_registers.min? = some 0 ∧
      (get_free_register s').1 = 1 ∧
      (get_free_register s').1 ≠ 0 := by
  refine ⟨{ bytecode := [1, 0, 0x2A, 0, 0, 128, 63, 1, 1, 0x2A, 0, 0, 0, 64, 7, 0, 1, 2],
            next_free_register := 3, free_registers := [1, 0], locals := [], args := [] },
          by decide, by decide, by decide, by decide, by decide⟩

/-- C2 (amended): acquiring a temporary register removes and returns the
element at index 0 (the front) of the free-list — which need not be its
smallest id — with the last element swapped into its place, leaving the
remaining ids as a permutation of the tail and the monotonic counter
untouched; only when the free-list is empty is the next monotonic id
consumed. -/
theorem C2_amended_front_of_free_list (s : CState) :
    (∀ x xs, s.free_registers = x :: xs →
      (get_free_register s).1 = x ∧
      ((get_free_register s).2.free_registers).Perm xs ∧
      (get_free_register s).2.next_free_register = s.next_free_register) ∧
    (s.free_registers = [] →
      (get_free_register s).1 = s.next_free_register ∧
      (get_free_register s).2.next_free_register = s.next_free_register + 1 ∧
      (get_free_register s).2.free_registers = []) := by
  constructor
  · intro x xs hfree
    refine ⟨by simp [get_free_register, hfree], ?_, by simp [get_free_register, hfree]⟩
    simp only [get_free_register, hfree]
    cases hlast : xs.getLast? with
    | none =>
      have hnil : xs = [] := List.getLast?_eq_none_iff.mp hlast
      simp [hnil]
    | some l =>
      have hxs : xs.dropLast ++ [l] = xs :=
        List.dropLast_append_getLast? l (Option.mem_def.mpr hlast)
      have hperm : (l :: xs.dropLast).Perm (xs.dropLast ++ [l]) :=
        @List.perm_append_comm Nat [l] xs.dropLast
      simpa [hxs] using hperm
  · intro hfree
    refine ⟨?_, ?_, ?_⟩ <;> simp [get_free_register, hfree]

theorem C2_amended_front_of_free_list_witness :
    (get_free_register { bytecode := [], next_free_register := 5,
                         free_registers := [3, 7, 9], locals := [], args := [] }).1 = 3 ∧
    ((get_free_register { bytecode := [], next_free_register := 5,
                          free_registers := [3, 7, 9], locals := [], args := [] }).2.free_registers).Perm
      [7, 9] ∧
    (get_free_register { bytecode := [], next_free_register := 5,
                         free_registers := [3, 7, 9], locals := [], args := [] }).2.next_free_register =
      5 :=
  (C2_amended_front_of_free_list _).1 3 [7, 9] rfl

theorem next_byte_eq (p : Process) (b : Nat) (h : p.code[p.pos]? = some b) :
    p.next_byte = .ok (b, { p with pos := p.pos + 1 }) := by
  simp [Process.next_byte, h]

theorem do_math_op_eq (p : Process) (op : Opcode) (lefti righti desti : Nat)
    (l r : Register)
    (h1 : p.code[p.pos]? = some lefti)
    (h2 : p.code[p.pos + 1]? = some righti)
    (h3 : p.code[p.pos + 2]? = some desti)
    (hl : p.registers[lefti]? = some l)
    (hr : p.registers[righti]? = some r)
    (hd : desti < p.registers.length) :
    p.do_math_op op = .ok { p with
      pos := p.pos + 3,
      registers := p.registers.set desti
        { tag := 0x2A, value := mathResult op l.value r.value } } := by
  simp [Process.do_math_op, Process.next_byte, Process.getReg, Process.setReg,
        h1, h2, h3, hl, hr, hd, bind, Except.bind, Nat.add_assoc]

theorem do_compare_op_eq (p : Process) (op : Opcode) (lefti righti resulti : Nat)
    (l r : Register)
    (h1 : p.code[p.pos]? = some lefti)
    (h2 : p.code[p.pos + 1]? = some righti)
    (h3 : p.code[p.pos + 2]? = some resulti)
    (hl : p.registers[lefti]? = some l)
    (hr : p.registers[righti]? = some r)
    (hd : resulti < p.registers.length) :
    p.do_compare_op op = .ok { p with
      pos := p.pos + 3,
      registers := p.registers.set resulti
        { tag := 0x2A, value := if compare l r op then 0x3F800000 else 0 } } := by
  simp [Process.do_compare_op, Process.next_byte, Process.getReg, Process.setReg,
        h1, h2, h3, hl, hr, hd, bind, Except.bind, Nat.add_assoc]

theorem f32div_zero_infOrNaN (x y : Nat) (hy : y = 0 ∨ y = 2147483648) :
    f32isInf (f32div x y) = true ∨ f32isNaN (f32div x y) = true := by
  have hyn : f32isNaN y = false := by rcases hy with h | h <;> subst h <;> decide
  have hyi : f32isInf y = false := by rcases hy with h | h <;> subst h <;> decide
  have hym : f32M y = 0 := by rcases hy with h | h <;> subst h <;> decide
  have hs : (if f32sign x = f32sign y then 0 else 1) = 0 ∨
      (if f32sign x = f32sign y then 0 else 1) = 1 := by
    split <;> simp
  by_cases h1 : f32isNaN x = true
  · right
    simp [f32div, h1]
    decide
  · by_cases h2 : f32isInf x = true
    · left
      simp only [f32div, h1, h2, hyn, hyi, Bool.false_or, Bool.or_false, if_false,
                 Bool.false_eq_true, if_true]
      rcases hs with h | h <;> rw [h] <;> decide
    · by_cases h3 : f32M x = 0
      · right
        simp only [f32div, h1, h2, hyn, hyi, hym, h3, Bool.false_or, Bool.or_false,
                   Bool.false_eq_true, if_false, if_true]
        decide
      · left
        simp only [f32div, h1, h2, hyn, hyi, hym, h3, Bool.false_or, Bool.or_false,
                   Bool.false_eq_true, if_false, if_true]
        rcases hs with h | h <;> rw [h] <;> decide

/-- C4: executing ADD, SUB, MUL or DIV writes into the destination register
the IEEE-754 binary32 result of the operation applied to the two operand
payloads reinterpreted as floats — the operands' stored tags are never
consulted — sets the destination tag to the number sentinel 0x2A, and
advances past the three operand bytes; division by a zero payload yields
±infinity or NaN rather than an error. -/
theorem C4_math_opcodes (host : Host) (doCall : Nat → List Register → RunResult)
    (p : Process) (b : Nat) (op : Opcode)
    (hb : p.code[p.pos]? = some b) (hdec : Opcode.fromByte b = op)
    (hop : op = .ADD ∨ op = .SUB ∨ op = .MUL ∨ op = .DIV)
    (lefti righti desti : Nat) (l r : Register)
    (h1 : p.code[p.pos + 1]? = some lefti)
    (h2 : p.code[p.pos + 2]? = some righti)
    (h3 : p.code[p.pos + 3]? = some desti)
    (hl : p.registers[lefti]? = some l)
    (hr : p.registers[righti]? = some r)
    (hd : desti < p.registers.length) :
    execute_one host doCall p = .ok { p with
      pos := p.pos + 4,
      registers := p.registers.set desti
        { tag := 0x2A, value := mathResult op l.value r.value } } ∧
    (mathResult .ADD l.value r.value = f32add l.value r.value ∧
     mathResult .SUB l.value r.value = f32sub l.value r.value ∧
     mathResult .MUL l.value r.value = f32mul l.value r.value ∧
     mathResult .DIV l.value r.value = f32div l.value r.value) ∧
    (∀ x y : Nat, y = 0 ∨ y = 2147483648 →
      f32isInf (f32div x y) = true ∨ f32isNaN (f32div x y) = true) := by
  refine ⟨?_, ⟨rfl, rfl, rfl, rfl⟩, f32div_zero_infOrNaN⟩
  have hstep := do_math_op_eq { p with pos := p.pos + 1 } op lefti righti desti l r
    (by simpa using h1) (by simpa [Nat.add_assoc] using h2) (by simpa [Nat.add_assoc] using h3)
    hl hr hd
  rcases hop with h | h | h | h <;> subst h <;>
    simp [execute_one, next_byte_eq p b hb, hdec, hstep, liftStep, Nat.add_assoc]

theorem C4_math_opcodes_witness :
    execute_one testHost (run_program 0 testHost (oneProgVM []))
      { Process.new 0 [10, 0, 1, 2] [] with
        registers := ((List.replicate 16 Register.default).set 0
          { tag := 7, value := 0x3F800000 }).set 1 { tag := 9, value := 0 } } =
      .ok { Process.new 0 [10, 0, 1, 2] [] with
        pos := 4,
        registers := ((((List.replicate 16 Register.default).set 0
          { tag := 7, value := 0x3F800000 }).set 1 { tag := 9, value := 0 }).set 2
          { tag := 0x2A, value := mathResult .DIV 0x3F800000 0 }) } ∧
    mathResult .DIV 0x3F800000 0 = 0x7F800000 := by
  constructor
  · exact (C4_math_opcodes testHost (run_program 0 testHost (oneProgVM [])) _ 10 .DIV
      (by decide) (by decide) (by simp) 0 1 2
      { tag := 7, value := 0x3F800000 } { tag := 9, value := 0 }
      (by decide) (by decide) (by decide) (by decide) (by decide) (by decide)).1
  · decide

/-- C5: executing any of the five comparison opcodes writes exactly the
float 1.0 (bits 0x3F800000) into the result register when the IEEE-754
comparison of the two payloads-as-floats holds and exactly 0.0 (bits 0)
otherwise, tagged with the number sentinel 0x2A; in particular EQUAL
produces 0.0 whenever either payload is NaN. -/
theorem C5_comparison_opcodes (host : Host) (doCall : Nat → List Register → RunResult)
    (p : Process) (b : Nat) (op : Opcode)
    (hb : p.code[p.pos]? = some b) (hdec : Opcode.fromByte b = op)
    (hop : op = .LESS_THAN ∨ op = .LESS_OR_EQUAL ∨ op = .EQUAL ∨
           op = .GREATER_OR_EQUAL ∨ op = .GREATER_THAN)
    (lefti righti resulti : Nat) (l r : Register)
    (h1 : p.code[p.pos + 1]? = some lefti)
    (h2 : p.code[p.pos + 2]? = some righti)
    (h3 : p.code[p.pos + 3]? = some resulti)
    (hl : p.registers[lefti]? = some l)
    (hr : p.registers[righti]? = some r)
    (hd : resulti < p.registers.length) :
    execute_one host doCall p = .ok { p with
      pos := p.pos + 4,
      registers := p.registers.set resulti
        { tag := 0x2A, value := if compare l r op then 0x3F800000 else 0 } } ∧
    (compare l r .LESS_THAN = f32lt l.value r.value ∧
     compare l r .LESS_OR_EQUAL = f32le l.value r.value ∧
     compare l r .EQUAL = f32eq l.value r.value ∧
     compare l r .GREATER_OR_EQUAL = f32ge l.value r.value ∧
     compare l r .GREATER_THAN = f32gt l.value r.value) ∧
    (f32isNaN l.value = true ∨ f32isNaN r.value = true →
      compare l r .EQUAL = false) := by
  refine ⟨?_, ⟨rfl, rfl, rfl, rfl, rfl⟩, ?_⟩
  · have hstep := do_compare_op_eq { p with pos := p.pos + 1 } op lefti righti resulti l r
      (by simpa using h1) (by simpa [Nat.add_assoc] using h2) (by simpa [Nat.add_assoc] using h3)
      hl hr hd
    rcases hop with h | h | h | h | h <;> subst h <;>
      simp [execute_one, next_byte_eq p b hb, hdec, hstep, liftStep, Nat.add_assoc]
  · intro hnan
    rcases hnan with h | h <;> simp [compare, f32eq, f32cmp, h]

theorem C5_comparison_opcodes_witness :
    execute_one testHost (run_program 0 testHost (oneProgVM []))
      { Process.new 0 [13, 0, 1, 2] [] with
        registers := ((List.replicate 16 Register.default).set 0
          { tag := 0x2A, value := 0x7FC00000 }).set 1 { tag := 0x2A, value := 0x7FC00000 } } =
      .ok { Process.new 0 [13, 0, 1, 2] [] with
        pos := 4,
        registers := ((((List.replicate 16 Register.default).set 0
          { tag := 0x2A, value := 0x7FC00000 }).set 1 { tag := 0x2A, value := 0x7FC00000 }).set 2
          { tag := 0x2A, value := if compare { tag := 0x2A, value := 0x7FC00000 }
              { tag := 0x2A, value := 0x7FC00000 } .EQUAL then 0x3F800000 else 0 }) } ∧
    (if compare { tag := 0x2A, value := 0x7FC00000 }
        { tag := 0x2A, value := 0x7FC00000 } .EQUAL then (0x3F800000 : Nat) else 0) = 0 := by
  constructor
  · exact (C5_comparison_opcodes testHost (run_program 0 testHost (oneProgVM [])) _ 13 .EQUAL
      (by decide) (by decide) (by simp) 0 1 2
      { tag := 0x2A, value := 0x7FC00000 } { tag := 0x2A, value := 0x7FC00000 }
      (by decide) (by decide) (by decide) (by decide) (by decide) (by decide)).1
  · decide

theorem liftStep_ne_halt (x : Except VmPanic Process) (q : Process) : liftStep x ≠ .halt q := by
  cases x <;> simp [liftStep]

theorem fromByte_inv (b : Nat) :
    (Opcode.fromByte b = .HALT ↔ b = 0) ∧
    (Opcode.fromByte b = .SET_FIELD ↔ b = 6) ∧
    (Opcode.fromByte b = .INVALID ↔ 22 ≤ b) := by
  by_cases h : b < 22
  · have hall : ∀ c, c < 22 →
        ((Opcode.fromByte c = .HALT ↔ c = 0) ∧
         (Opcode.fromByte c = .SET_FIELD ↔ c = 6) ∧
         (Opcode.fromByte c = .INVALID ↔ 22 ≤ c)) := by decide
    exact hall b h
  · have h22 : 22 ≤ b := by omega
    have hi : Opcode.fromByte b = .INVALID := by
      unfold Opcode.fromByte
      rw [if_neg h]
    refine ⟨?_, ?_, ?_⟩
    · rw [hi]
      constructor
      · intro hc; cases hc
      · intro hc; omega
    · rw [hi]
      constructor
      · intro hc; cases hc
      · intro hc; omega
    · rw [hi]
      simp [h22]

/-- C7: the interpreter loop stops exactly on a byte the dispatcher does not
implement as an instruction-with-effects case (the halt opcode 0, the
reserved SET_FIELD opcode 6, or any invalid byte ≥ 22); such a byte ends
execution as a normal completion with the process state otherwise untouched,
so a buffer with a corrupt opcode midstream is observably identical to one
ending in a deliberate HALT. -/
theorem C7_termination_on_undecoded_opcode :
    (∀ (host : Host) (doCall : Nat → List Register → RunResult) (p : Process) (b : Nat),
      p.code[p.pos]? = some b →
      (execute_one host doCall p = .halt { p with pos := p.pos + 1 } ↔ undecodedByte b)) ∧
    (∀ (fuel : Nat) (host : Host) (vm : VM) (p : Process) (b : Nat),
      p.code[p.pos]? = some b → undecodedByte b →
      execute (fuel + 1) host vm p = .done { p with pos := p.pos + 1 }) ∧
    (run_program 9 testHost (oneProgVM [1, 0, 0x2A, 0, 0, 0, 64, 21, 0, 0]) 1 [] =
       run_program 9 testHost (oneProgVM [1, 0, 0x2A, 0, 0, 0, 64, 21, 0, 0xEE]) 1 [] ∧
     run_program 9 testHost (oneProgVM [1, 0, 0x2A, 0, 0, 0, 64, 21, 0, 0xEE]) 1 [] =
       .ok { tag := 0x2A, value := 0x40000000 }) := by
  have hchar : ∀ (host : Host) (doCall : Nat → List Register → RunResult) (p : Process) (b : Nat),
      p.code[p.pos]? = some b →
      (execute_one host doCall p = .halt { p with pos := p.pos + 1 } ↔ undecodedByte b) := by
    intro host doCall p b hb
    constructor
    · intro hh
      simp only [execute_one, next_byte_eq p b hb] at hh
      cases hop : Opcode.fromByte b with
      | HALT => exact .inl ((fromByte_inv b).1.mp hop)
      | SET_FIELD => exact .inr (.inl ((fromByte_inv b).2.1.mp hop))
      | INVALID => exact .inr (.inr ((fromByte_inv b).2.2.mp hop))
      | CALL =>
        rw [hop] at hh
        exfalso
        revert hh
        cases hcall : ({ p with pos := p.pos + 1, call_arg_stack := [] } : Process).read_value with
        | error e => simp [hcall, bind, Except.bind]
        | ok pr =>
          simp only [hcall, bind, Except.bind]
          cases hnb : pr.2.next_byte with
          | error e => simp
          | ok pr2 =>
            simp only []
            cases doCall pr.1 p.call_arg_stack with
            | ok r =>
              cases hsr : pr2.2.setReg pr2.1 { tag := r.tag, value := r.value } with
              | ok q => simp only [hsr]; exact liftStep_ne_halt _ _
              | error e => simp only [hsr]; exact liftStep_ne_halt _ _
            | panic e => simp
            | timeout => simp
      | LOAD_IMMEDIATE => rw [hop] at hh; exact absurd hh (liftStep_ne_halt _ _)
      | LOAD_ARGUMENT => rw [hop] at hh; exact absurd hh (liftStep_ne_halt _ _)
      | LOAD_LOCAL => rw [hop] at hh; exact absurd hh (liftStep_ne_halt _ _)
      | STORE_LOCAL => rw [hop] at hh; exact absurd hh (liftStep_ne_halt _ _)
      | GET_FIELD => rw [hop] at hh; exact absurd hh (liftStep_ne_halt _ _)
      | ADD => rw [hop] at hh; exact absurd hh (liftStep_ne_halt _ _)
      | SUB => rw [hop] at hh; exact absurd hh (liftStep_ne_halt _ _)
      | MUL => rw [hop] at hh; exact absurd hh (liftStep_ne_halt _ _)
      | DIV => rw [hop] at hh; exact absurd hh (liftStep_ne_halt _ _)
      | LESS_THAN => rw [hop] at hh; exact absurd hh (liftStep_ne_halt _ _)
      | LESS_OR_EQUAL => rw [hop] at hh; exact absurd hh (liftStep_ne_halt _ _)
      | EQUAL => rw [hop] at hh; exact absurd hh (liftStep_ne_halt _ _)
      | GREATER_OR_EQUAL => rw [hop] at hh; exact absurd hh (liftStep_ne_halt _ _)
      | GREATER_THAN => rw [hop] at hh; exact absurd hh (liftStep_ne_halt _ _)
      | JUMP => rw [hop] at hh; exact absurd hh (liftStep_ne_halt _ _)
      | JUMP_TRUE => rw [hop] at hh; exact absurd hh (liftStep_ne_halt _ _)
      | JUMP_FALSE => rw [hop] at hh; exact absurd hh (liftStep_ne_halt _ _)
      | PUSH => rw [hop] at hh; exact absurd hh (liftStep_ne_halt _ _)
      | RETURN => rw [hop] at hh; exact absurd hh (liftStep_ne_halt _ _)
    · intro hu
      rcases hu with h | h | h
      · subst h; simp [execute_one, next_byte_eq p 0 hb, Opcode.fromByte]
      · subst h; simp [execute_one, next_byte_eq p 6 hb, Opcode.fromByte]
      · have hi : Opcode.fromByte b = .INVALID := (fromByte_inv b).2.2.mpr h
        simp [execute_one, next_byte_eq p b hb, hi]
  refine ⟨hchar, ?_, ?_, ?_⟩
  · intro fuel host vm p b hb hu
    have hstep := (hchar host (run_program fuel host vm) p b hb).mpr hu
    simp [execute, hstep]
  · decide
  · decide

theorem C7_termination_on_undecoded_opcode_witness :
    execute_one testHost (run_program 0 testHost (oneProgVM [])) (Process.new 0 [6] []) =
      .halt { Process.new 0 [6] [] with pos := 1 } ∧
    execute 4 testHost (oneProgVM []) (Process.new 0 [99] []) =
      .done { Process.new 0 [99] [] with pos := 1 } :=
  ⟨(C7_termination_on_undecoded_opcode.1 testHost (run_program 0 testHost (oneProgVM []))
      (Process.new 0 [6] []) 6 rfl).mpr (.inr (.inl rfl)),
   C7_termination_on_undecoded_opcode.2.1 3 testHost (oneProgVM []) (Process.new 0 [99] []) 99
      rfl (.inr (.inr (by omega)))⟩

theorem fromByte_ret_inv (b : Nat) : Opcode.fromByte b = .RETURN ↔ b = 21 := by
  by_cases h : b < 22
  · have hall : ∀ c, c < 22 → (Opcode.fromByte c = .RETURN ↔ c = 21) := by decide
    exact hall b h
  · have hi : Opcode.fromByte b = .INVALID := by
      unfold Opcode.fromByte
      rw [if_neg h]
    rw [hi]
    constructor
    · intro hc; cases hc
    · intro hc; omega

theorem liftStep_ok (x : Except VmPanic Process) (q : Process)
    (h : liftStep x = .ok q) : x = .ok q := by
  cases x with
  | ok p => cases h; rfl
  | error e => cases h

theorem bind_ok_inv {α β : Type} (x : Except VmPanic α) (f : α → Except VmPanic β) (b : β)
    (h : Except.bind x f = .ok b) : ∃ a, x = .ok a ∧ f a = .ok b := by
  cases x with
  | error e => cases h
  | ok a => exact ⟨a, rfl, h⟩

theorem map_ok_inv {α β : Type} (f : α → β) (x : Except VmPanic α) (b : β)
    (h : Except.map f x = .ok b) : ∃ a, x = .ok a ∧ f a = b := by
  cases x with
  | error e => cases h
  | ok a => cases h; exact ⟨a, rfl, rfl⟩

theorem next_byte_rrid (p : Process) (pr : Nat × Process) (h : p.next_byte = .ok pr) :
    pr.2.return_register_id = p.return_register_id := by
  unfold Process.next_byte at h
  cases hc : p.code[p.pos]? with
  | none => rw [hc] at h; cases h
  | some x => rw [hc] at h; cases h; rfl

theorem read_value_rrid (p : Process) (pr : Nat × Process) (h : p.read_value = .ok pr) :
    pr.2.return_register_id = p.return_register_id := by
  unfold Process.read_value at h
  split at h
  · cases h; rfl
  · cases h

theorem read_short_rrid (p : Process) (pr : Nat × Process) (h : p.read_short = .ok pr) :
    pr.2.return_register_id = p.return_register_id := by
  unfold Process.read_short at h
  split at h
  · cases h; rfl
  · cases h

theorem setReg_rrid (p : Process) (i : Nat) (r : Register) (q : Process)
    (h : p.setReg i r = .ok q) : q.return_register_id = p.return_register_id := by
  unfold Process.setReg at h
  split at h
  · cases h; rfl
  · cases h

theorem setLocal_rrid (p : Process) (i : Nat) (r : Register) (q : Process)
    (h : p.setLocal i r = .ok q) : q.return_register_id = p.return_register_id := by
  unfold Process.setLocal at h
  split at h
  · cases h; rfl
  · cases h

theorem do_math_op_rrid (op : Opcode) (p q : Process) (h : p.do_math_op op = .ok q) :
    q.return_register_id = p.return_register_id := by
  unfold Process.do_math_op at h
  simp only [bind] at h
  obtain ⟨pr1, h1, h⟩ := bind_ok_inv _ _ _ h
  obtain ⟨pr2, h2, h⟩ := bind_ok_inv _ _ _ h
  obtain ⟨pr3, h3, h⟩ := bind_ok_inv _ _ _ h
  obtain ⟨l, hl, h⟩ := bind_ok_inv _ _ _ h
  obtain ⟨r, hr, h⟩ := bind_ok_inv _ _ _ h
  rw [setReg_rrid _ _ _ _ h, next_byte_rrid _ _ h3, next_byte_rrid _ _ h2,
      next_byte_rrid _ _ h1]

theorem do_compare_op_rrid (op : Opcode) (p q : Process) (h : p.do_compare_op op = .ok q) :
    q.return_register_id = p.return_register_id := by
  unfold Process.do_compare_op at h
  simp only [bind] at h
  obtain ⟨pr1, h1, h⟩ := bind_ok_inv _ _ _ h
  obtain ⟨pr2, h2, h⟩ := bind_ok_inv _ _ _ h
  obtain ⟨pr3, h3, h⟩ := bind_ok_inv _ _ _ h
  obtain ⟨l, hl, h⟩ := bind_ok_inv _ _ _ h
  obtain ⟨r, hr, h⟩ := bind_ok_inv _ _ _ h
  rw [setReg_rrid _ _ _ _ h, next_byte_rrid _ _ h3, next_byte_rrid _ _ h2,
      next_byte_rrid _ _ h1]

theorem execute_one_ok_preserves_rrid (host : Host)
    (doCall : Nat → List Register → RunResult) (p p' : Process) (b : Nat)
    (hb : p.code[p.pos]? = some b) (hb21 : b ≠ 21)
    (hexec : execute_one host doCall p = .ok p') :
    p'.return_register_id = p.return_register_id := by
  simp only [execute_one, next_byte_eq p b hb] at hexec
  cases hop : Opcode.fromByte b with
  | RETURN => exact absurd ((fromByte_ret_inv b).mp hop) hb21
  | HALT => rw [hop] at hexec; dsimp only at hexec; cases hexec
  | SET_FIELD => rw [hop] at hexec; dsimp only at hexec; cases hexec
  | INVALID => rw [hop] at hexec; dsimp only at hexec; cases hexec
  | LOAD_IMMEDIATE =>
    rw [hop] at hexec
    dsimp only at hexec
    have h := liftStep_ok _ _ hexec
    simp only [bind] at h
    obtain ⟨⟨i1, q1⟩, h1, h⟩ := bind_ok_inv _ _ _ h
    dsimp only at h
    obtain ⟨⟨i2, q2⟩, h2, h⟩ := bind_ok_inv _ _ _ h
    dsimp only at h
    obtain ⟨⟨i3, q3⟩, h3, h⟩ := bind_ok_inv _ _ _ h
    dsimp only at h
    exact (setReg_rrid _ _ _ _ h).trans ((read_value_rrid _ _ h3).trans
      ((next_byte_rrid _ _ h2).trans (next_byte_rrid _ _ h1)))
  | LOAD_ARGUMENT =>
    rw [hop] at hexec
    dsimp only at hexec
    have h := liftStep_ok _ _ hexec
    simp only [bind] at h
    obtain ⟨⟨i1, q1⟩, h1, h⟩ := bind_ok_inv _ _ _ h
    dsimp only at h
    obtain ⟨⟨i2, q2⟩, h2, h⟩ := bind_ok_inv _ _ _ h
    dsimp only at h
    obtain ⟨arg, ha, h⟩ := bind_ok_inv _ _ _ h
    exact (setReg_rrid _ _ _ _ h).trans
      ((next_byte_rrid _ _ h2).trans (next_byte_rrid _ _ h1))
  | LOAD_LOCAL =>
    rw [hop] at hexec
    dsimp only at hexec
    have h := liftStep_ok _ _ hexec
    simp only [bind] at h
    obtain ⟨⟨i1, q1⟩, h1, h⟩ := bind_ok_inv _ _ _ h
    dsimp only at h
    obtain ⟨⟨i2, q2⟩, h2, h⟩ := bind_ok_inv _ _ _ h
    dsimp only at h
    obtain ⟨l, hl, h⟩ := bind_ok_inv _ _ _ h
    exact (setReg_rrid _ _ _ _ h).trans
      ((next_byte_rrid _ _ h2).trans (next_byte_rrid _ _ h1))
  | STORE_LOCAL =>
    rw [hop] at hexec
    dsimp only at hexec
    have h := liftStep_ok _ _ hexec
    simp only [bind] at h
    obtain ⟨⟨i1, q1⟩, h1, h⟩ := bind_ok_inv _ _ _ h
    dsimp only at h
    obtain ⟨⟨i2, q2⟩, h2, h⟩ := bind_ok_inv _ _ _ h
    dsimp only at h
    obtain ⟨l, hl, h⟩ := bind_ok_inv _ _ _ h
    obtain ⟨d, hd, h⟩ := bind_ok_inv _ _ _ h
    exact (setLocal_rrid _ _ _ _ h).trans
      ((next_byte_rrid _ _ h2).trans (next_byte_rrid _ _ h1))
  | GET_FIELD =>
    rw [hop] at hexec
    dsimp only at hexec
    have h := liftStep_ok _ _ hexec
    simp only [bind] at h
    obtain ⟨⟨i1, q1⟩, h1, h⟩ := bind_ok_inv _ _ _ h
    dsimp only at h
    obtain ⟨⟨i2, q2⟩, h2, h⟩ := bind_ok_inv _ _ _ h
    dsimp only at h
    obtain ⟨⟨i3, q3⟩, h3, h⟩ := bind_ok_inv _ _ _ h
    dsimp only at h
    obtain ⟨src, hs, h⟩ := bind_ok_inv _ _ _ h
    exact (setReg_rrid _ _ _ _ h).trans ((next_byte_rrid _ _ h3).trans
      ((read_short_rrid _ _ h2).trans (next_byte_rrid _ _ h1)))
  | ADD =>
    rw [hop] at hexec; dsimp only at hexec
    have hq := do_math_op_rrid _ _ _ (liftStep_ok _ _ hexec)
    exact hq
  | SUB =>
    rw [hop] at hexec; dsimp only at hexec
    have hq := do_math_op_rrid _ _ _ (liftStep_ok _ _ hexec)
    exact hq
  | MUL =>
    rw [hop] at hexec; dsimp only at hexec
    have hq := do_math_op_rrid _ _ _ (liftStep_ok _ _ hexec)
    exact hq
  | DIV =>
    rw [hop] at hexec; dsimp only at hexec
    have hq := do_math_op_rrid _ _ _ (liftStep_ok _ _ hexec)
    exact hq
  | LESS_THAN =>
    rw [hop] at hexec; dsimp only at hexec
    have hq := do_compare_op_rrid _ _ _ (liftStep_ok _ _ hexec)
    exact hq
  | LESS_OR_EQUAL =>
    rw [hop] at hexec; dsimp only at hexec
    have hq := do_compare_op_rrid _ _ _ (liftStep_ok _ _ hexec)
    exact hq
  | EQUAL =>
    rw [hop] at hexec; dsimp only at hexec
    have hq := do_compare_op_rrid _ _ _ (liftStep_ok _ _ hexec)
    exact hq
  | GREATER_OR_EQUAL =>
    rw [hop] at hexec; dsimp only at hexec
    have hq := do_compare_op_rrid _ _ _ (liftStep_ok _ _ hexec)
    exact hq
  | GREATER_THAN =>
    rw [hop] at hexec; dsimp only at hexec
    have hq := do_compare_op_rrid _ _ _ (liftStep_ok _ _ hexec)
    exact hq
  | JUMP =>
    rw [hop] at hexec
    dsimp only at hexec
    have h := liftStep_ok _ _ hexec
    simp only [bind] at h
    obtain ⟨⟨i1, q1⟩, h1, h⟩ := bind_ok_inv _ _ _ h
    dsimp only at h
    simp only [pure, Except.pure] at h
    cases h
    exact read_value_rrid _ _ h1
  | JUMP_TRUE =>
    rw [hop] at hexec
    dsimp only at hexec
    have h := liftStep_ok _ _ hexec
    simp only [bind] at h
    obtain ⟨⟨i1, q1⟩, h1, h⟩ := bind_ok_inv _ _ _ h
    dsimp only at h
    obtain ⟨⟨i2, q2⟩, h2, h⟩ := bind_ok_inv _ _ _ h
    dsimp only at h
    obtain ⟨r, hr, h⟩ := bind_ok_inv _ _ _ h
    simp only [pure, Except.pure] at h
    cases h
    split <;> exact (read_value_rrid _ _ h2).trans (next_byte_rrid _ _ h1)
  | JUMP_FALSE =>
    rw [hop] at hexec
    dsimp only at hexec
    have h := liftStep_ok _ _ hexec
    simp only [bind] at h
    obtain ⟨⟨i1, q1⟩, h1, h⟩ := bind_ok_inv _ _ _ h
    dsimp only at h
    obtain ⟨⟨i2, q2⟩, h2, h⟩ := bind_ok_inv _ _ _ h
    dsimp only at h
    obtain ⟨r, hr, h⟩ := bind_ok_inv _ _ _ h
    simp only [pure, Except.pure] at h
    cases h
    split <;> exact (read_value_rrid _ _ h2).trans (next_byte_rrid _ _ h1)
  | PUSH =>
    rw [hop] at hexec
    dsimp only at hexec
    have h := liftStep_ok _ _ hexec
    simp only [bind] at h
    obtain ⟨⟨i1, q1⟩, h1, h⟩ := bind_ok_inv _ _ _ h
    dsimp only at h
    obtain ⟨r, hr, h⟩ := bind_ok_inv _ _ _ h
    simp only [pure, Except.pure] at h
    cases h
    exact next_byte_rrid _ _ h1
  | CALL =>
    rw [hop] at hexec
    dsimp only at hexec
    split at hexec
    · cases hexec
    · rename_i heqok
      rename_i proc_id result_register q
      simp only [bind] at heqok
      obtain ⟨⟨pid1, q1⟩, hc1, heqok⟩ := bind_ok_inv _ _ _ heqok
      dsimp only at heqok
      obtain ⟨⟨rr1, q2⟩, hc2, heqok⟩ := bind_ok_inv _ _ _ heqok
      dsimp only at heqok
      cases heqok
      split at hexec
      · have hq := setReg_rrid _ _ _ _ (liftStep_ok _ _ hexec)
        exact hq.trans ((next_byte_rrid _ _ hc2).trans (read_value_rrid _ _ hc1))
      · cases hexec
      · cases hexec

/-- C6 counterexample: a buffer that loads 1.0 into register 0 and halts —
it contains no RETURN opcode (byte 21), so no RETURN is ever executed — and
run_program returns the loaded value, not the all-zero register, refuting
"if no RETURN was ever executed it returns register 0, which holds the
all-zero register". -/
theorem C6_counterexample :
    (21 : Nat) ∉ [1, 0, 0x2A, 0, 0, 128, 63, 0] ∧
    run_program 9 testHost (oneProgVM [1, 0, 0x2A, 0, 0, 128, 63, 0]) 1 [] =
      .ok { tag := 0x2A, value := 0x3F800000 } ∧
    run_program 9 testHost (oneProgVM [1, 0, 0x2A, 0, 0, 128, 63, 0]) 1 [] ≠
      .ok { tag := 0, value := 0 } :=
  ⟨by decide, by decide, by decide⟩

/-- C6 (amended): run_program on a registered id builds a fresh Process and
drives it; executing RETURN only records the designated register id (the
loop continues); the fresh process starts with return register id 0 and an
all-zero register file, every non-RETURN instruction leaves the designated
id unchanged (so it is 0 if no RETURN was ever executed), and the value
returned is whatever the designated register holds at termination. -/
theorem C6_amended_return_register :
    (∀ (host : Host) (doCall : Nat → List Register → RunResult) (p : Process) (i : Nat),
      p.code[p.pos]? = some 21 → p.code[p.pos + 1]? = some i →
      execute_one host doCall p =
        .ok { p with pos := p.pos + 2, return_register_id := i }) ∧
    (∀ (pid : Nat) (code : List Nat) (args : List Register),
      (Process.new pid code args).return_register_id = 0 ∧
      (Process.new pid code args).registers[0]? = some { tag := 0, value := 0 }) ∧
    (∀ (p : Process) (r : Register), p.registers[p.return_register_id]? = some r →
      p.get_return_value = .ok r) ∧
    (∀ (fuel : Nat) (host : Host) (vm : VM) (id : Nat) (args : List Register)
        (code : List Nat), lookupAssoc vm.bytecodes id = some code →
      run_program (fuel + 1) host vm id args =
        match execute fuel host vm (Process.new vm.current_pid code args) with
        | .done q =>
          match q.get_return_value with
          | .ok r => .ok r
          | .error e => .panic e
        | .panic e => .panic e
        | .timeout => .timeout) ∧
    (∀ (host : Host) (doCall : Nat → List Register → RunResult) (p p' : Process) (b : Nat),
      p.code[p.pos]? = some b → b ≠ 21 → execute_one host doCall p = .ok p' →
      p'.return_register_id = p.return_register_id) := by
  refine ⟨?_, ?_, ?_, ?_, execute_one_ok_preserves_rrid⟩
  · intro host doCall p i h21 hi
    have h1 := next_byte_eq ({ p with pos := p.pos + 1 } : Process) i (by simpa using hi)
    have h21' : Opcode.fromByte 21 = .RETURN := by decide
    simp [execute_one, next_byte_eq p 21 h21, h21', bind, Except.bind, h1, pure, Except.pure, liftStep]
  · intro pid code args
    exact ⟨rfl, by simp [Process.new, NUM_REGISTERS, Register.default]⟩
  · intro p r h
    simp [Process.get_return_value, Process.getReg, h]
  · intro fuel host vm id args code hcode
    simp only [run_program, hcode]

theorem C6_amended_return_register_witness :
    execute_one testHost (run_program 0 testHost (oneProgVM [])) (Process.new 0 [21, 3] []) =
      .ok { Process.new 0 [21, 3] [] with pos := 2, return_register_id := 3 } ∧
    (Process.new 0 [21, 3] []).return_register_id = 0 ∧
    run_program 7 testHost (oneProgVM [21, 3, 0]) 1 [] =
      match execute 6 testHost (oneProgVM [21, 3, 0])
          (Process.new 0 [21, 3, 0] []) with
      | .done q =>
        match q.get_return_value with
        | .ok r => .ok r
        | .error e => .panic e
      | .panic e => .panic e
      | .timeout => .timeout :=
  ⟨C6_amended_return_register.1 testHost (run_program 0 testHost (oneProgVM []))
      (Process.new 0 [21, 3] []) 3 rfl rfl,
   (C6_amended_return_register.2.1 0 [21, 3] []).1,
   C6_amended_return_register.2.2.2.1 6 testHost (oneProgVM [21, 3, 0]) 1 [] [21, 3, 0] rfl⟩

theorem le32_reconstruct (x : Nat) :
    x % 256 + 256 * (x / 256 % 256) + 65536 * (x / 65536 % 256) +
      16777216 * (x / 16777216 % 256) = x % 4294967296 := by omega

/-- C1: compiling `return L;` produces LOAD_IMMEDIATE + RETURN with no
terminator byte, so run_program reads past the end of the produced buffer
and panics on the unwrapped EOF instead of returning the number-tagged
value; appending the HALT byte the VM's own tests use yields exactly the
value the claim describes — tag 0x2A and the f32 bit pattern of the
literal — for every integer and float literal. -/
theorem C1_return_literal_roundtrip :
    (∀ L : Int, compile noIntern 9 [] [.ret (some (.base [] (.int L) []))] =
      .ok (retIntBytecode L)) ∧
    (∀ L : Int, run_program 9 testHost (oneProgVM (retIntBytecode L)) 1 [] = .panic .eof) ∧
    (∀ L : Int, run_program 9 testHost (oneProgVM (retIntBytecode L ++ [0])) 1 [] =
      .ok { tag := 0x2A, value := intToF32Bits L % 4294967296 }) ∧
    (∀ bits : Nat, compile noIntern 9 [] [.ret (some (.base [] (.float bits) []))] =
      .ok (retFloatBytecode bits)) ∧
    (∀ bits : Nat, run_program 9 testHost (oneProgVM (retFloatBytecode bits)) 1 [] =
      .panic .eof) ∧
    (∀ bits : Nat, run_program 9 testHost (oneProgVM (retFloatBytecode bits ++ [0])) 1 [] =
      .ok { tag := 0x2A, value := bits % 4294967296 }) := by
  refine ⟨fun L => rfl, fun L => rfl, fun L => ?_, fun bits => rfl, fun bits => rfl,
    fun bits => ?_⟩
  · have h : run_program 9 testHost (oneProgVM (retIntBytecode L ++ [0])) 1 [] =
        .ok { tag := 0x2A, value :=
          intToF32Bits L % 256 + 256 * (intToF32Bits L / 256 % 256) +
            65536 * (intToF32Bits L / 65536 % 256) +
            16777216 * (intToF32Bits L / 16777216 % 256) } := rfl
    rw [h, le32_reconstruct]
  · have h : run_program 9 testHost (oneProgVM (retFloatBytecode bits ++ [0])) 1 [] =
        .ok { tag := 0x2A, value :=
          bits % 256 + 256 * (bits / 256 % 256) + 65536 * (bits / 65536 % 256) +
            16777216 * (bits / 16777216 % 256) } := rfl
    rw [h, le32_reconstruct]

theorem get_free_register_bytecode (s : CState) :
    (get_free_register s).2.bytecode = s.bytecode := by
  unfold get_free_register
  cases s.free_registers with
  | nil => rfl
  | cons x xs => rfl

theorem get_free_register_locals (s : CState) :
    (get_free_register s).2.locals = s.locals := by
  unfold get_free_register
  cases s.free_registers with
  | nil => rfl
  | cons x xs => rfl

theorem PP_refl (a : List Nat) : PrefixPreserved a a := ⟨le_refl _, fun _ _ => rfl⟩

theorem PP_trans {a b c : List Nat} (h1 : PrefixPreserved a b) (h2 : PrefixPreserved b c) :
    PrefixPreserved a c :=
  ⟨le_trans h1.1 h2.1, fun i hi => (h2.2 i (lt_of_lt_of_le hi h1.1)).trans (h1.2 i hi)⟩

theorem PP_append (a bs : List Nat) : PrefixPreserved a (a ++ bs) :=
  ⟨by simp, fun i hi => List.getElem?_append_left hi⟩

theorem writeBytesAt_length (bs : List Nat) : ∀ (code : List Nat) (loc : Nat),
    (writeBytesAt code loc bs).length = code.length := by
  induction bs with
  | nil => intro code loc; rfl
  | cons b rest ih =>
    intro code loc
    simp only [writeBytesAt, ih, List.length_set]

theorem writeBytesAt_get_lt (bs : List Nat) : ∀ (code : List Nat) (loc i : Nat), i < loc →
    (writeBytesAt code loc bs)[i]? = code[i]? := by
  induction bs with
  | nil => intro code loc i _; rfl
  | cons b rest ih =>
    intro code loc i hi
    simp only [writeBytesAt]
    rw [ih _ _ _ (by omega), List.getElem?_set_ne (by omega)]

theorem writeBytesAt_get_ge (bs : List Nat) : ∀ (code : List Nat) (loc i : Nat),
    loc + bs.length ≤ i → (writeBytesAt code loc bs)[i]? = code[i]? := by
  induction bs with
  | nil => intro code loc i _; rfl
  | cons b rest ih =>
    intro code loc i hi
    simp only [List.length_cons] at hi
    simp only [writeBytesAt]
    rw [ih _ _ _ (by omega), List.getElem?_set_ne (by omega)]

theorem writeBytesAt_get_at (bs : List Nat) : ∀ (code : List Nat) (loc j : Nat),
    j < bs.length → loc + bs.length ≤ code.length →
    (writeBytesAt code loc bs)[loc + j]? = bs[j]? := by
  induction bs with
  | nil => intro code loc j hj _; cases hj
  | cons b rest ih =>
    intro code loc j hj hlen
    simp only [List.length_cons] at hj hlen
    cases j with
    | zero =>
      simp only [writeBytesAt]
      rw [writeBytesAt_get_lt rest _ _ _ (by omega)]
      rw [Nat.add_zero]
      rw [List.getElem?_set_self (by omega), List.getElem?_cons_zero]
    | succ j' =>
      simp only [writeBytesAt]
      have := ih (code.set loc b) (loc + 1) j' (by omega) (by simp; omega)
      rw [show loc + (j' + 1) = loc + 1 + j' from by omega]
      rw [this, List.getElem?_cons_succ]

theorem take_four_eq (l : List Nat) (a b c d : Nat) :
    l.take 4 = [a, b, c, d] ↔
      l[0]? = some a ∧ l[1]? = some b ∧ l[2]? = some c ∧ l[3]? = some d := by
  match l with
  | [] => simp
  | [x] => simp
  | [x, y] => simp
  | [x, y, z] => simp
  | x :: y :: z :: w :: rest =>
    show [x, y, z, w] = [a, b, c, d] ↔ _
    simp [List.getElem?_cons_zero, List.getElem?_cons_succ]

theorem bytesAt_four (code : List Nat) (loc a b c d : Nat) :
    bytesAt code loc 4 = [a, b, c, d] ↔
      code[loc]? = some a ∧ code[loc + 1]? = some b ∧
      code[loc + 2]? = some c ∧ code[loc + 3]? = some d := by
  unfold bytesAt
  rw [take_four_eq]
  rw [List.getElem?_drop, List.getElem?_drop, List.getElem?_drop, List.getElem?_drop]
  rw [Nat.add_zero]

theorem writeBytesAt_bytesAt_four (code : List Nat) (loc a b c d : Nat)
    (h : loc + 4 ≤ code.length) :
    bytesAt (writeBytesAt code loc [a, b, c, d]) loc 4 = [a, b, c, d] := by
  rw [bytesAt_four]
  refine ⟨?_, ?_, ?_, ?_⟩
  · have := writeBytesAt_get_at [a, b, c, d] code loc 0 (by simp) (by simpa using h)
    simpa using this
  · have := writeBytesAt_get_at [a, b, c, d] code loc 1 (by simp) (by simpa using h)
    simpa using this
  · have := writeBytesAt_get_at [a, b, c, d] code loc 2 (by simp) (by simpa using h)
    simpa using this
  · have := writeBytesAt_get_at [a, b, c, d] code loc 3 (by simp) (by simpa using h)
    simpa using this

theorem le32_length (n : Nat) : (le32 n).length = 4 := rfl

theorem getElem?_append_self (a : List Nat) (b : Nat) (bs : List Nat) :
    (a ++ b :: bs)[a.length]? = some b := by
  rw [List.getElem?_append_right (le_refl _)]
  simp

theorem processFollows_prefix (intern : String → Nat) : ∀ (fo : List Follow)
    (thing : Nat) (s : CState) (r : Nat) (s' : CState),
    processFollows intern fo thing s = .ok (r, s') →
    PrefixPreserved s.bytecode s'.bytecode := by
  intro fo
  induction fo with
  | nil => intro thing s r s' h; cases h; exact PP_refl _
  | cons f rest ih =>
    intro thing s r s' h
    cases f with
    | field name =>
      simp only [processFollows] at h
      exact PP_trans (PP_append _ _) (ih _ _ _ _ h)
    | unsupportedFollow => cases h


theorem foldl_writeBytesAt_PP (a bytes : List Nat) :
    ∀ (locs : List Nat) (b : List Nat), PrefixPreserved a b →
      (∀ loc ∈ locs, a.length ≤ loc) →
      PrefixPreserved a (locs.foldl (fun c loc => writeBytesAt c loc bytes) b) := by
  intro locs
  induction locs with
  | nil => intro b hb _; exact hb
  | cons x xs ih =>
    intro b hb hloc
    simp only [List.foldl_cons]
    refine ih _ ⟨?_, ?_⟩ (fun loc hl => hloc loc (List.mem_cons_of_mem _ hl))
    · rw [writeBytesAt_length]; exact hb.1
    · intro i hi
      have hx : a.length ≤ x := hloc x (List.mem_cons_self x xs)
      rw [writeBytesAt_get_lt bytes b x i (by omega)]
      exact hb.2 i hi

theorem visitors_bytecode_growth (intern : String → Nat) : ∀ fuel : Nat,
    (∀ (e : Expression) (b : Bool) (s : CState) (r : Nat) (s' : CState),
      visit_expression_impl intern fuel e b s = .ok (r, s') →
      PrefixPreserved s.bytecode s'.bytecode) ∧
    (∀ (t : Term) (fo : List Follow) (b : Bool) (s : CState) (r : Nat) (s' : CState),
      visit_term intern fuel t fo b s = .ok (r, s') →
      PrefixPreserved s.bytecode s'.bytecode) ∧
    (∀ (e : Expression) (s : CState) (u : Unit) (s' : CState),
      visit_expression_statement intern fuel e s = .ok (u, s') →
      PrefixPreserved s.bytecode s'.bytecode) ∧
    (∀ (v : VarStatement) (s : CState) (u : Unit) (s' : CState),
      visit_var intern fuel v s = .ok (u, s') →
      PrefixPreserved s.bytecode s'.bytecode) ∧
    (∀ (st : Statement) (s : CState) (u : Unit) (s' : CState),
      visit_statement intern fuel st s = .ok (u, s') →
      PrefixPreserved s.bytecode s'.bytecode) ∧
    (∀ (blk : List Statement) (s : CState) (u : Unit) (s' : CState),
      visit_block intern fuel blk s = .ok (u, s') →
      PrefixPreserved s.bytecode s'.bytecode) ∧
    (∀ (arms : List (Expression × List Statement)) (els : Option (List Statement))
        (acc : List Nat) (s : CState) (ps : List Nat) (s' : CState),
      visit_if_arms intern fuel arms els acc s = .ok (ps, s') →
      PrefixPreserved s.bytecode s'.bytecode ∧
      ∃ newLocs, ps = acc ++ newLocs ∧
        ∀ loc ∈ newLocs, s.bytecode.length + 2 ≤ loc ∧ loc + 4 ≤ s'.bytecode.length) := by
  intro fuel
  induction fuel with
  | zero =>
    refine ⟨?_, ?_, ?_, ?_, ?_, ?_, ?_⟩
    · intro e b s r s' h; simp [visit_expression_impl] at h
    · intro t fo b s r s' h; simp [visit_term] at h
    · intro e s u s' h; simp [visit_expression_statement] at h
    · intro v s u s' h; simp [visit_var] at h
    · intro st s u s' h; simp [visit_statement] at h
    · intro blk s u s' h; simp [visit_block] at h
    · intro arms els acc s ps s' h; simp [visit_if_arms] at h
  | succ fuel ih =>
    obtain ⟨ihE, ihT, ihES, ihV, ihS, ihB, ihA⟩ := ih
    have hexpr : ∀ (e : Expression) (b : Bool) (s : CState) (r : Nat) (s' : CState),
        visit_expression_impl intern (fuel + 1) e b s = .ok (r, s') →
        PrefixPreserved s.bytecode s'.bytecode := by
      intro e b s r s' h
      cases e with
      | base un t fo =>
        simp only [visit_expression_impl] at h
        exact ihT t fo b s r s' h
      | binaryOp op lhs rhs =>
        simp only [visit_expression_impl] at h
        cases hl : visit_expression_impl intern fuel lhs false s with
        | error e1 => rw [hl] at h; cases h
        | ok pr1 =>
          obtain ⟨lreg, s1⟩ := pr1
          rw [hl] at h
          dsimp only at h
          cases hr : visit_expression_impl intern fuel rhs false s1 with
          | error e1 => rw [hr] at h; cases h
          | ok pr2 =>
            obtain ⟨rreg, s2⟩ := pr2
            rw [hr] at h
            dsimp only at h
            cases hbo : binOpOpcode op with
            | none => rw [hbo] at h; cases h
            | some oper =>
              rw [hbo] at h
              dsimp only at h
              rcases hgfr : get_free_register s2 with ⟨rr, s3⟩
              rw [hgfr] at h
              dsimp only at h
              cases h
              have h3 : s3.bytecode = s2.bytecode := by
                rw [← get_free_register_bytecode s2, hgfr]
              refine PP_trans (ihE lhs false s lreg s1 hl)
                (PP_trans (ihE rhs false s1 rreg s2 hr) ?_)
              simp only [free_register, emit]
              rw [h3]
              exact PP_append _ _
      | unsupportedExpr => simp [visit_expression_impl] at h
    have hterm : ∀ (t : Term) (fo : List Follow) (b : Bool) (s : CState) (r : Nat)
        (s' : CState), visit_term intern (fuel + 1) t fo b s = .ok (r, s') →
        PrefixPreserved s.bytecode s'.bytecode := by
      intro t fo b s r s' h
      cases t with
      | int n =>
        simp only [visit_term] at h
        rcases hgfr : get_free_register s with ⟨rr, s1⟩
        rw [hgfr] at h
        dsimp only at h
        cases h
        have h1 : s1.bytecode = s.bytecode := by
          rw [← get_free_register_bytecode s, hgfr]
        simp only [emit]
        rw [h1]
        exact PP_append _ _
      | float bits =>
        simp only [visit_term] at h
        rcases hgfr : get_free_register s with ⟨rr, s1⟩
        rw [hgfr] at h
        dsimp only at h
        cases h
        have h1 : s1.bytecode = s.bytecode := by
          rw [← get_free_register_bytecode s, hgfr]
        simp only [emit]
        rw [h1]
        exact PP_append _ _
      | ident name =>
        simp only [visit_term] at h
        cases ha : lookupAssoc s.args name with
        | some reg =>
          rw [ha] at h
          dsimp only at h
          rcases hgfr : get_free_register s with ⟨rr, s1⟩
          rw [hgfr] at h
          dsimp only at h
          have h1 : s1.bytecode = s.bytecode := by
            rw [← get_free_register_bytecode s, hgfr]
          have hpf := processFollows_prefix intern fo rr _ r s' h
          refine PP_trans ?_ hpf
          simp only [emit]
          rw [h1]
          exact PP_append _ _
        | none =>
          rw [ha] at h
          dsimp only at h
          cases hb2 : lookupAssoc s.locals name with
          | some reg =>
            rw [hb2] at h
            dsimp only at h
            rcases hgfr : get_free_register s with ⟨rr, s1⟩
            rw [hgfr] at h
            dsimp only at h
            have h1 : s1.bytecode = s.bytecode := by
              rw [← get_free_register_bytecode s, hgfr]
            have hpf := processFollows_prefix intern fo rr _ r s' h
            refine PP_trans ?_ hpf
            simp only [emit]
            rw [h1]
            exact PP_append _ _
          | none => rw [hb2] at h; cases h
      | expr e1 =>
        simp only [visit_term] at h
        exact ihE e1 false s r s' h
      | unsupportedTerm => simp [visit_term] at h
    have hes : ∀ (e : Expression) (s : CState) (u : Unit) (s' : CState),
        visit_expression_statement intern (fuel + 1) e s = .ok (u, s') →
        PrefixPreserved s.bytecode s'.bytecode := by
      intro e s u s' h
      simp only [visit_expression_statement] at h
      cases hv : visit_expression_impl intern fuel e true s with
      | error e1 => rw [hv] at h; cases h
      | ok pr =>
        obtain ⟨r, s1⟩ := pr
        rw [hv] at h
        dsimp only at h
        cases h
        exact ihE e true s r s1 hv
    have hvar : ∀ (v : VarStatement) (s : CState) (u : Unit) (s' : CState),
        visit_var intern (fuel + 1) v s = .ok (u, s') →
        PrefixPreserved s.bytecode s'.bytecode := by
      intro v s u s' h
      simp only [visit_var] at h
      cases hval : v.value with
      | none =>
        rw [hval] at h
        dsimp only at h
        cases h
        exact PP_refl _
      | some e =>
        rw [hval] at h
        dsimp only at h
        cases hv : visit_expression_impl intern fuel e false
            { s with locals := insertAssoc s.locals v.name s.locals.length } with
        | error e1 => rw [hv] at h; cases h
        | ok pr =>
          obtain ⟨r, s1⟩ := pr
          rw [hv] at h
          dsimp only at h
          cases h
          have hmid := ihE e false _ r s1 hv
          refine PP_trans (PP_trans ?_ hmid) ?_
          · exact PP_refl _
          · simp only [free_register, emit]
            exact PP_append _ _
    have hblock : ∀ (blk : List Statement) (s : CState) (u : Unit) (s' : CState),
        visit_block intern (fuel + 1) blk s = .ok (u, s') →
        PrefixPreserved s.bytecode s'.bytecode := by
      intro blk s u s' h
      cases blk with
      | nil =>
        simp only [visit_block] at h
        cases h
        exact PP_refl _
      | cons stmt rest =>
        simp only [visit_block] at h
        cases hv : visit_statement intern fuel stmt s with
        | error e1 => rw [hv] at h; cases h
        | ok pr =>
          obtain ⟨u1, s1⟩ := pr
          cases u1
          rw [hv] at h
          dsimp only at h
          exact PP_trans (ihS stmt s () s1 hv) (ihB rest s1 u s' h)
    have hstmt : ∀ (st : Statement) (s : CState) (u : Unit) (s' : CState),
        visit_statement intern (fuel + 1) st s = .ok (u, s') →
        PrefixPreserved s.bytecode s'.bytecode := by
      intro st s u s' h
      cases st with
      | expr e =>
        simp only [visit_statement] at h
        exact ihES e s u s' h
      | ret oe =>
        cases oe with
        | none => simp [visit_statement] at h
        | some e =>
          simp only [visit_statement] at h
          cases hv : visit_expression_impl intern fuel e false s with
          | error e1 => rw [hv] at h; cases h
          | ok pr =>
            obtain ⟨r, s1⟩ := pr
            rw [hv] at h
            dsimp only at h
            cases h
            refine PP_trans (ihE e false s r s1 hv) ?_
            simp only [free_register, emit]
            exact PP_append _ _
      | var v =>
        simp only [visit_statement] at h
        exact ihV v s u s' h
      | ifChain arms els =>
        simp only [visit_statement] at h
        cases hia : visit_if_arms intern fuel arms els [] s with
        | error e1 => rw [hia] at h; cases h
        | ok pr =>
          obtain ⟨patches, s1⟩ := pr
          rw [hia] at h
          dsimp only at h
          obtain ⟨hpp1, newLocs, hps, hbounds⟩ := ihA arms els [] s patches s1 hia
          simp only [List.nil_append] at hps
          cases els with
          | none =>
            dsimp only at h
            cases h
            exact hpp1
          | some blk =>
            dsimp only at h
            cases hvb : visit_block intern fuel blk s1 with
            | error e1 => rw [hvb] at h; cases h
            | ok pr2 =>
              obtain ⟨u2, s2⟩ := pr2
              cases u2
              rw [hvb] at h
              dsimp only at h
              cases h
              have hpp2 := ihB blk s1 () s2 hvb
              refine foldl_writeBytesAt_PP s.bytecode _ patches s2.bytecode
                (PP_trans hpp1 hpp2) ?_
              intro loc hl
              rw [hps] at hl
              have := (hbounds loc hl).1
              omega
      | unsupportedStmt => simp [visit_statement] at h
    refine ⟨hexpr, hterm, hes, hvar, hstmt, hblock, ?_⟩
    intro arms els acc s ps s' h
    cases arms with
    | nil =>
      simp only [visit_if_arms] at h
      cases h
      exact ⟨PP_refl _, [], by simp, by simp⟩
    | cons arm rest =>
      obtain ⟨cond, blk⟩ := arm
      simp only [visit_if_arms] at h
      cases hc : visit_expression_impl intern fuel cond false s with
      | error e1 => rw [hc] at h; cases h
      | ok pr =>
        obtain ⟨creg, s1⟩ := pr
        rw [hc] at h
        dsimp only at h
        have hpps1 : PrefixPreserved s.bytecode s1.bytecode := ihE cond false s creg s1 hc
        cases hvb : visit_block intern fuel blk
            (emit [Opcode.JUMP_FALSE.toByte, toId creg, 0, 0, 0, 0] s1) with
        | error e1 => rw [hvb] at h; cases h
        | ok pr2 =>
          obtain ⟨u2, s2⟩ := pr2
          cases u2
          rw [hvb] at h
          dsimp only at h
          have hpps2 : PrefixPreserved
              (emit [Opcode.JUMP_FALSE.toByte, toId creg, 0, 0, 0, 0] s1).bytecode
              s2.bytecode := ihB blk _ () s2 hvb
          have hJlen : (emit [Opcode.JUMP_FALSE.toByte, toId creg, 0, 0, 0, 0]
              s1).bytecode.length = s1.bytecode.length + 6 := by
            simp [emit]
          cases els with
          | none =>
            simp only [Option.isSome] at h
            rw [if_neg Bool.false_ne_true] at h
            dsimp only at h
            obtain ⟨hppR, newLocs, hpsR, hboundsR⟩ := ihA rest none acc _ ps s' h
            have hlen1 : s.bytecode.length ≤ s1.bytecode.length := hpps1.1
            have hlen2 : s1.bytecode.length + 6 ≤ s2.bytecode.length := by
              have := hpps2.1
              omega
            have hRlen := hppR.1
            simp only [free_register, writeBytesAt_length] at hRlen
            simp only [free_register, writeBytesAt_length] at hboundsR
            refine ⟨?_, newLocs, hpsR, ?_⟩
            · refine PP_trans ?_ hppR
              refine ⟨?_, ?_⟩
              · simp only [free_register, writeBytesAt_length]
                omega
              · intro i hi
                simp only [free_register]
                rw [writeBytesAt_get_lt _ _ _ _ (by rw [hJlen]; omega)]
                have h2 := hpps2.2 i (by rw [hJlen]; omega)
                have h0 : (emit [Opcode.JUMP_FALSE.toByte, toId creg, 0, 0, 0, 0]
                    s1).bytecode[i]? = s1.bytecode[i]? := by
                  simp only [emit]
                  exact List.getElem?_append_left (by omega)
                rw [h2, h0, hpps1.2 i hi]
            · intro loc hl
              have := hboundsR loc hl
              omega
          | some eblk =>
            simp only [Option.isSome, if_true] at h
            obtain ⟨hppR, newLocs, hpsR, hboundsR⟩ := ihA rest (some eblk) _ _ ps s' h
            have hKlen : (emit [Opcode.JUMP.toByte, 0, 0, 0, 0] s2).bytecode.length =
                s2.bytecode.length + 5 := by
              simp [emit]
            have hlen1 : s.bytecode.length ≤ s1.bytecode.length := hpps1.1
            have hlen2 : s1.bytecode.length + 6 ≤ s2.bytecode.length := by
              have := hpps2.1
              omega
            have hRlen := hppR.1
            simp only [free_register, writeBytesAt_length, hKlen] at hRlen
            simp only [free_register, writeBytesAt_length, hKlen] at hboundsR
            refine ⟨?_, ((emit [Opcode.JUMP.toByte, 0, 0, 0, 0] s2).bytecode.length - 4) ::
              newLocs, ?_, ?_⟩
            · refine PP_trans ?_ hppR
              refine ⟨?_, ?_⟩
              · simp only [free_register, writeBytesAt_length, hKlen]
                omega
              · intro i hi
                simp only [free_register]
                rw [writeBytesAt_get_lt _ _ _ _ (by rw [hJlen]; omega)]
                have hK : (emit [Opcode.JUMP.toByte, 0, 0, 0, 0] s2).bytecode[i]? =
                    s2.bytecode[i]? := by
                  simp only [emit]
                  exact List.getElem?_append_left (by omega)
                have h2 := hpps2.2 i (by rw [hJlen]; omega)
                have h0 : (emit [Opcode.JUMP_FALSE.toByte, toId creg, 0, 0, 0, 0]
                    s1).bytecode[i]? = s1.bytecode[i]? := by
                  simp only [emit]
                  exact List.getElem?_append_left (by omega)
                rw [hK, h2, h0, hpps1.2 i hi]
            · rw [hpsR]
              simp
            · intro loc hl
              rcases List.mem_cons.mp hl with h1 | h2
              · subst h1
                rw [hKlen]
                constructor
                · omega
                · omega
              · have := hboundsR loc h2
                omega

theorem bytesAt_four_transfer {u v : List Nat} {loc n : Nat}
    (h : bytesAt u loc 4 = le32 n)
    (hag : ∀ j, loc ≤ j → j < loc + 4 → v[j]? = u[j]?) :
    bytesAt v loc 4 = le32 n := by
  simp only [le32] at h ⊢
  rw [bytesAt_four] at h ⊢
  obtain ⟨h0, h1, h2, h3⟩ := h
  exact ⟨(hag loc (by omega) (by omega)).trans h0,
         (hag (loc + 1) (by omega) (by omega)).trans h1,
         (hag (loc + 2) (by omega) (by omega)).trans h2,
         (hag (loc + 3) (by omega) (by omega)).trans h3⟩

theorem ArmsPatched_le {code : List Nat} {hasElse : Bool} {pos : Nat}
    {arms : List (Expression × List Statement)} {chainEnd : Nat} {ejs : List Nat}
    (h : ArmsPatched code hasElse pos arms chainEnd ejs) :
    pos ≤ chainEnd ∧ ∀ loc ∈ ejs, pos + 7 ≤ loc ∧ loc + 4 ≤ chainEnd := by
  induction h with
  | nil pos => exact ⟨le_refl _, by simp⟩
  | cons pos cond blk rest condLen blkLen jfPos armEnd chainEnd ejs hjf harm hb1 hb2 hlt
      hje hrest ih =>
    have hih1 := ih.1
    refine ⟨by omega, ?_⟩
    intro loc hl
    cases hasElse with
    | false =>
      rw [if_neg Bool.false_ne_true] at hl
      have := ih.2 loc hl
      omega
    | true =>
      rw [if_pos rfl] at hl
      rw [if_pos rfl] at harm
      rcases List.mem_cons.mp hl with h1 | h2
      · subst h1
        omega
      · have := ih.2 loc h2
        omega

theorem ArmsPatched_pairwise {code : List Nat} {hasElse : Bool} {pos : Nat}
    {arms : List (Expression × List Statement)} {chainEnd : Nat} {ejs : List Nat}
    (h : ArmsPatched code hasElse pos arms chainEnd ejs) :
    List.Pairwise (fun a b => a + 4 ≤ b) ejs := by
  induction h with
  | nil pos => exact List.Pairwise.nil
  | cons pos cond blk rest condLen blkLen jfPos armEnd chainEnd ejs hjf harm hb1 hb2 hlt
      hje hrest ih =>
    cases hasElse with
    | false =>
      rw [if_neg Bool.false_ne_true]
      exact ih
    | true =>
      rw [if_pos rfl]
      rw [if_pos rfl] at harm
      refine List.Pairwise.cons ?_ ih
      intro b hb
      have := (ArmsPatched_le hrest).2 b hb
      omega

theorem ArmsPatched_false_nil {code : List Nat} {pos : Nat}
    {arms : List (Expression × List Statement)} {chainEnd : Nat} {ejs : List Nat}
    (h : ArmsPatched code false pos arms chainEnd ejs) : ejs = [] := by
  induction h with
  | nil pos => rfl
  | cons pos cond blk rest condLen blkLen jfPos armEnd chainEnd ejs hjf harm hb1 hb2 hlt
      hje hrest ih =>
    rw [if_neg Bool.false_ne_true]
    exact ih

theorem ArmsPatched_mono {code code' : List Nat} {hasElse : Bool} {pos : Nat}
    {arms : List (Expression × List Statement)} {chainEnd : Nat} {ejs : List Nat}
    (h : ArmsPatched code hasElse pos arms chainEnd ejs)
    (hag : ∀ i, pos ≤ i → i < chainEnd → (∀ loc ∈ ejs, i < loc ∨ loc + 4 ≤ i) →
      code'[i]? = code[i]?) :
    ArmsPatched code' hasElse pos arms chainEnd ejs := by
  induction h with
  | nil pos => exact .nil pos
  | cons pos cond blk rest condLen blkLen jfPos armEnd chainEnd ejs hjf harm hb1 hb2 hlt
      hje hrest ih =>
    have hle := ArmsPatched_le hrest
    have hle1 := hle.1
    cases hasElse with
    | false =>
      rw [if_neg Bool.false_ne_true] at hag
      have harm2 : armEnd = jfPos + 6 + blkLen := by
        rw [if_neg Bool.false_ne_true] at harm
        omega
      have hwin : ∀ i, i < armEnd → ∀ loc ∈ ejs, i < loc ∨ loc + 4 ≤ i := by
        intro i hi loc hl
        left
        have := hle.2 loc hl
        omega
      refine ArmsPatched.cons pos cond blk rest condLen blkLen jfPos armEnd chainEnd ejs
        hjf harm ?_ ?_ hlt ?_ (ih ?_)
      · exact (hag jfPos (by omega) (by omega) (hwin jfPos (by omega))).trans hb1
      · refine bytesAt_four_transfer hb2 ?_
        intro j hj1 hj2
        exact hag j (by omega) (by omega) (hwin j (by omega))
      · intro hff
        exact absurd hff (by decide)
      · intro i h1 h2 h3
        exact hag i (by omega) h2 h3
    | true =>
      rw [if_pos rfl] at hag
      have harm2 : armEnd = jfPos + 11 + blkLen := by
        rw [if_pos rfl] at harm
        omega
      have hwin : ∀ i, i ≤ armEnd - 5 → ∀ loc ∈ (armEnd - 4) :: ejs, i < loc ∨ loc + 4 ≤ i := by
        intro i hi loc hl
        rcases List.mem_cons.mp hl with h1 | h2
        · subst h1
          left
          omega
        · left
          have := hle.2 loc h2
          omega
      refine ArmsPatched.cons pos cond blk rest condLen blkLen jfPos armEnd chainEnd ejs
        hjf harm ?_ ?_ hlt ?_ (ih ?_)
      · exact (hag jfPos (by omega) (by omega) (hwin jfPos (by omega))).trans hb1
      · refine bytesAt_four_transfer hb2 ?_
        intro j hj1 hj2
        exact hag j (by omega) (by omega) (hwin j (by omega))
      · intro htt
        exact (hag (armEnd - 5) (by omega) (by omega) (hwin (armEnd - 5) (by omega))).trans
          (hje htt)
      · intro i h1 h2 h3
        refine hag i (by omega) h2 ?_
        intro loc hl
        rcases List.mem_cons.mp hl with hx | hx
        · subst hx
          right
          omega
        · exact h3 loc hx

theorem foldl_writeBytesAt_length (bytes : List Nat) : ∀ (locs code : List Nat),
    (locs.foldl (fun c loc => writeBytesAt c loc bytes) code).length = code.length := by
  intro locs
  induction locs with
  | nil => intro code; rfl
  | cons x xs ih =>
    intro code
    simp only [List.foldl_cons, ih, writeBytesAt_length]

theorem foldl_write_get (bytes : List Nat) : ∀ (locs code : List Nat) (i : Nat),
    (∀ loc ∈ locs, i < loc ∨ loc + bytes.length ≤ i) →
    (locs.foldl (fun c loc => writeBytesAt c loc bytes) code)[i]? = code[i]? := by
  intro locs
  induction locs with
  | nil => intro code i _; rfl
  | cons x xs ih =>
    intro code i hwin
    simp only [List.foldl_cons]
    rw [ih _ _ (fun loc hl => hwin loc (List.mem_cons_of_mem _ hl))]
    rcases hwin x (List.mem_cons_self x xs) with h1 | h2
    · exact writeBytesAt_get_lt bytes code x i h1
    · exact writeBytesAt_get_ge bytes code x i h2

theorem foldl_write_at (t : Nat) : ∀ (locs code : List Nat) (loc : Nat),
    loc ∈ locs → List.Pairwise (fun a b => a + 4 ≤ b) locs →
    (∀ l ∈ locs, l + 4 ≤ code.length) →
    bytesAt (locs.foldl (fun c l => writeBytesAt c l (le32 t)) code) loc 4 = le32 t := by
  intro locs
  induction locs with
  | nil => intro code loc hl _ _; cases hl
  | cons x xs ih =>
    intro code loc hl hpw hbnd
    simp only [List.foldl_cons]
    rcases List.mem_cons.mp hl with h1 | h2
    · subst h1
      have hset : bytesAt (writeBytesAt code loc (le32 t)) loc 4 = le32 t := by
        have := writeBytesAt_bytesAt_four code loc (t % 256) (t / 256 % 256)
          (t / 65536 % 256) (t / 16777216 % 256) (hbnd loc (List.mem_cons_self _ _))
        simpa [le32] using this
      refine bytesAt_four_transfer hset ?_
      intro j hj1 hj2
      refine foldl_write_get _ xs _ j ?_
      intro l hlx
      left
      have := (List.pairwise_cons.mp hpw).1 l hlx
      omega
    · refine ih _ loc h2 (List.pairwise_cons.mp hpw).2 ?_
      intro l hlx
      rw [writeBytesAt_length]
      exact hbnd l (List.mem_cons_of_mem _ hlx)

theorem visit_if_arms_layout (intern : String → Nat) :
    ∀ (arms : List (Expression × List Statement)) (fuel : Nat)
      (els : Option (List Statement)) (acc : List Nat) (s : CState)
      (ps : List Nat) (s' : CState),
      visit_if_arms intern fuel arms els acc s = .ok (ps, s') →
      ∃ newLocs, ps = acc ++ newLocs ∧
        ArmsPatched s'.bytecode els.isSome s.bytecode.length arms
          s'.bytecode.length newLocs := by
  intro arms
  induction arms with
  | nil =>
    intro fuel els acc s ps s' h
    match fuel with
    | 0 => simp [visit_if_arms] at h
    | fuel + 1 =>
      simp only [visit_if_arms] at h
      cases h
      exact ⟨[], by simp, .nil _⟩
  | cons arm rest ih =>
    intro fuel els acc s ps s' h
    match fuel with
    | 0 => simp [visit_if_arms] at h
    | fuel + 1 =>
      obtain ⟨cond, blk⟩ := arm
      have grE := (visitors_bytecode_growth intern fuel).1
      have grB := (visitors_bytecode_growth intern fuel).2.2.2.2.2.1
      have grA := (visitors_bytecode_growth intern fuel).2.2.2.2.2.2
      simp only [visit_if_arms] at h
      cases hc : visit_expression_impl intern fuel cond false s with
      | error e1 => rw [hc] at h; cases h
      | ok pr =>
        obtain ⟨creg, s1⟩ := pr
        rw [hc] at h
        dsimp only at h
        have hpps1 : PrefixPreserved s.bytecode s1.bytecode := grE cond false s creg s1 hc
        have hJlen : (emit [Opcode.JUMP_FALSE.toByte, toId creg, 0, 0, 0, 0]
            s1).bytecode.length = s1.bytecode.length + 6 := by
          simp [emit]
        have hjl : (emit [Opcode.JUMP_FALSE.toByte, toId creg, 0, 0, 0, 0]
            s1).bytecode.length - 4 = s1.bytecode.length + 2 := by
          rw [hJlen]
          omega
        cases hvb : visit_block intern fuel blk
            (emit [Opcode.JUMP_FALSE.toByte, toId creg, 0, 0, 0, 0] s1) with
        | error e1 => rw [hvb] at h; cases h
        | ok pr2 =>
          obtain ⟨u2, s2⟩ := pr2
          cases u2
          rw [hvb] at h
          dsimp only at h
          rw [hjl] at h
          have hpps2 : PrefixPreserved
              (emit [Opcode.JUMP_FALSE.toByte, toId creg, 0, 0, 0, 0] s1).bytecode
              s2.bytecode := grB blk _ () s2 hvb
          have hlen1 : s.bytecode.length ≤ s1.bytecode.length := hpps1.1
          have hlen2 : s1.bytecode.length + 6 ≤ s2.bytecode.length := by
            have := hpps2.1
            omega
          have hJFat : s2.bytecode[s1.bytecode.length]? =
              some Opcode.JUMP_FALSE.toByte := by
            refine (hpps2.2 s1.bytecode.length (by rw [hJlen]; omega)).trans ?_
            simp only [emit]
            exact getElem?_append_self _ _ _
          cases els with
          | none =>
            simp only [Option.isSome] at h ⊢
            rw [if_neg Bool.false_ne_true] at h
            dsimp only at h
            obtain ⟨newLocs, hps, hap⟩ := ih fuel none acc _ ps s' h
            simp only [free_register, writeBytesAt_length] at hap
            have hppR := (grA rest none acc _ ps s' h).1
            have hRlen := hppR.1
            simp only [free_register, writeBytesAt_length] at hRlen
            refine ⟨newLocs, hps, ?_⟩
            refine ArmsPatched.cons s.bytecode.length cond blk rest
              (s1.bytecode.length - s.bytecode.length)
              (s2.bytecode.length - (s1.bytecode.length + 6))
              s1.bytecode.length s2.bytecode.length s'.bytecode.length newLocs
              (by omega) (by rw [if_neg Bool.false_ne_true]; omega) ?_ ?_ (by omega)
              (fun hff => absurd hff (by decide)) hap
            · refine (hppR.2 s1.bytecode.length ?_).trans ?_
              · simp only [free_register, writeBytesAt_length]
                omega
              · simp only [free_register]
                rw [writeBytesAt_get_lt _ _ _ _ (by omega)]
                exact hJFat
            · have hset : bytesAt (writeBytesAt s2.bytecode (s1.bytecode.length + 2)
                  (le32 s2.bytecode.length)) (s1.bytecode.length + 2) 4 =
                  le32 s2.bytecode.length := by
                have := writeBytesAt_bytesAt_four s2.bytecode (s1.bytecode.length + 2)
                  (s2.bytecode.length % 256) (s2.bytecode.length / 256 % 256)
                  (s2.bytecode.length / 65536 % 256) (s2.bytecode.length / 16777216 % 256)
                  (by omega)
                simpa [le32] using this
              refine bytesAt_four_transfer hset ?_
              intro j hj1 hj2
              refine (hppR.2 j ?_).trans ?_
              · simp only [free_register, writeBytesAt_length]
                omega
              · simp only [free_register]
          | some eblk =>
            simp only [Option.isSome] at h ⊢
            simp only [if_true] at h
            have hKlen : (emit [Opcode.JUMP.toByte, 0, 0, 0, 0] s2).bytecode.length =
                s2.bytecode.length + 5 := by
              simp [emit]
            rw [hKlen] at h
            obtain ⟨newLocs, hps, hap⟩ := ih fuel (some eblk) _ _ ps s' h
            simp only [Option.isSome] at hap
            simp only [free_register, writeBytesAt_length, hKlen] at hap
            have hppR := (grA rest (some eblk) _ _ ps s' h).1
            have hRlen := hppR.1
            simp only [free_register, writeBytesAt_length, hKlen] at hRlen
            have hJat : (emit [Opcode.JUMP.toByte, 0, 0, 0, 0]
                s2).bytecode[s2.bytecode.length]? = some Opcode.JUMP.toByte := by
              simp only [emit]
              exact getElem?_append_self _ _ _
            have hKeep : ∀ i, i < s2.bytecode.length →
                (emit [Opcode.JUMP.toByte, 0, 0, 0, 0] s2).bytecode[i]? =
                s2.bytecode[i]? := by
              intro i hi
              simp only [emit]
              exact List.getElem?_append_left (by omega)
            refine ⟨(s2.bytecode.length + 5 - 4) :: newLocs, ?_, ?_⟩
            · rw [hps]
              simp
            · refine ArmsPatched.cons s.bytecode.length cond blk rest
                (s1.bytecode.length - s.bytecode.length)
                (s2.bytecode.length - (s1.bytecode.length + 6))
                s1.bytecode.length (s2.bytecode.length + 5) s'.bytecode.length newLocs
                (by omega) (by rw [if_pos rfl]; omega) ?_ ?_ (by omega) ?_ hap
              · refine (hppR.2 s1.bytecode.length ?_).trans ?_
                · simp only [free_register, writeBytesAt_length, hKlen]
                  omega
                · simp only [free_register]
                  rw [writeBytesAt_get_lt _ _ _ _ (by omega)]
                  rw [hKeep s1.bytecode.length (by omega)]
                  exact hJFat
              · have hset : bytesAt (writeBytesAt
                    (emit [Opcode.JUMP.toByte, 0, 0, 0, 0] s2).bytecode
                    (s1.bytecode.length + 2) (le32 (s2.bytecode.length + 5)))
                    (s1.bytecode.length + 2) 4 = le32 (s2.bytecode.length + 5) := by
                  have := writeBytesAt_bytesAt_four
                    (emit [Opcode.JUMP.toByte, 0, 0, 0, 0] s2).bytecode
                    (s1.bytecode.length + 2) ((s2.bytecode.length + 5) % 256)
                    ((s2.bytecode.length + 5) / 256 % 256)
                    ((s2.bytecode.length + 5) / 65536 % 256)
                    ((s2.bytecode.length + 5) / 16777216 % 256)
                    (by rw [hKlen]; omega)
                  simpa [le32] using this
                refine bytesAt_four_transfer hset ?_
                intro j hj1 hj2
                refine (hppR.2 j ?_).trans ?_
                · simp only [free_register, writeBytesAt_length, hKlen]
                  omega
                · simp only [free_register]
              · intro _
                have harith : s2.bytecode.length + 5 - 5 = s2.bytecode.length := by omega
                rw [harith]
                refine (hppR.2 s2.bytecode.length ?_).trans ?_
                · simp only [free_register, writeBytesAt_length, hKlen]
                  omega
                · simp only [free_register]
                  rw [writeBytesAt_get_ge _ _ _ _ (by simp only [le32_length]; omega)]
                  exact hJat

/-- Arms of the witness if/else-if/else chain used to instantiate C8. -/
def c8wArms : List (Expression × List Statement) :=
  [(litE 1, [Statement.expr (litE 2)]), (litE 0, [Statement.expr (litE 3)])]

/-- The else block of the witness chain. -/
def c8wElse : Option (List Statement) := some [Statement.expr (litE 4)]

/-- Output compiler state of lowering the witness chain from the empty
initial state. -/
def c8wOut : CState :=
  match visit_if noIntern 20 c8wArms c8wElse (initState []) with
  | .ok (_, s) => s
  | .error _ => initState []

/-- C8: every if/else-if/else chain the compiler lowers is laid out and
backpatched as `ArmsPatched` describes: each arm's JUMP_FALSE placeholder is
patched (little-endian, 4 bytes) to the buffer position immediately after
the arm — the start of the next arm's condition, of the else block, or of
what follows the chain — a strictly forward target (`jfPos < armEnd`); and
each end-of-chain JUMP operand (present exactly when an else block exists,
at operand locations `ejs`) is patched to the final buffer end after the
else block, also strictly forward of its instruction since the operand's
end `loc + 4` never exceeds that target. -/
theorem C8_if_chain_backpatching (intern : String → Nat) (fuel : Nat)
    (arms : List (Expression × List Statement)) (else_arm : Option (List Statement))
    (s s' : CState)
    (h : visit_if intern fuel arms else_arm s = .ok ((), s')) :
    ∃ chainEnd ejs,
      ArmsPatched s'.bytecode else_arm.isSome s.bytecode.length arms chainEnd ejs ∧
      (else_arm.isSome = false → ejs = [] ∧ chainEnd = s'.bytecode.length) ∧
      ∀ loc ∈ ejs, bytesAt s'.bytecode loc 4 = le32 s'.bytecode.length ∧
        loc + 4 ≤ s'.bytecode.length := by
  simp only [visit_if] at h
  cases hia : visit_if_arms intern fuel arms else_arm [] s with
  | error e1 => rw [hia] at h; cases h
  | ok pr =>
    obtain ⟨patches, s1⟩ := pr
    rw [hia] at h
    dsimp only at h
    obtain ⟨nl, hps, hap⟩ := visit_if_arms_layout intern arms fuel else_arm [] s
      patches s1 hia
    simp only [List.nil_append] at hps
    subst hps
    cases else_arm with
    | none =>
      dsimp only at h
      cases h
      simp only [Option.isSome] at hap ⊢
      have hnil := ArmsPatched_false_nil hap
      subst hnil
      exact ⟨s'.bytecode.length, [], hap, fun _ => ⟨rfl, rfl⟩, by simp⟩
    | some eblk =>
      dsimp only at h
      cases hvb : visit_block intern fuel eblk s1 with
      | error e1 => rw [hvb] at h; cases h
      | ok pr2 =>
        obtain ⟨u2, sb⟩ := pr2
        cases u2
        rw [hvb] at h
        dsimp only at h
        cases h
        simp only [Option.isSome] at hap ⊢
        have hpp : PrefixPreserved s1.bytecode sb.bytecode :=
          (visitors_bytecode_growth intern fuel).2.2.2.2.2.1 eblk s1 () sb hvb
        have hle := ArmsPatched_le hap
        have hpw := ArmsPatched_pairwise hap
        have hap2 : ArmsPatched sb.bytecode true s.bytecode.length arms
            s1.bytecode.length patches :=
          ArmsPatched_mono hap (fun i _ h2 _ => hpp.2 i h2)
        have hap3 : ArmsPatched
            (patches.foldl (fun c loc => writeBytesAt c loc (le32 sb.bytecode.length))
              sb.bytecode) true s.bytecode.length arms s1.bytecode.length patches := by
          refine ArmsPatched_mono hap2 ?_
          intro i _ _ hwin
          refine foldl_write_get _ patches sb.bytecode i ?_
          intro loc hl
          simp only [le32_length]
          exact hwin loc hl
        refine ⟨s1.bytecode.length, patches, hap3, fun hf => absurd hf (by decide), ?_⟩
        intro loc hl
        have hbnd := hle.2 loc hl
        have hlen2 := hpp.1
        constructor
        · rw [foldl_writeBytesAt_length]
          exact foldl_write_at sb.bytecode.length patches sb.bytecode loc hl hpw
            (fun l hlx => by have := hle.2 l hlx; omega)
        · rw [foldl_writeBytesAt_length]
          omega

theorem C8_if_chain_backpatching_witness :
    ∃ chainEnd ejs,
      ArmsPatched c8wOut.bytecode c8wElse.isSome (initState []).bytecode.length c8wArms
        chainEnd ejs ∧
      (c8wElse.isSome = false → ejs = [] ∧ chainEnd = c8wOut.bytecode.length) ∧
      ∀ loc ∈ ejs, bytesAt c8wOut.bytecode loc 4 = le32 c8wOut.bytecode.length ∧
        loc + 4 ≤ c8wOut.bytecode.length :=
  C8_if_chain_backpatching noIntern 20 c8wArms c8wElse (initState []) c8wOut (by decide)

set_option maxHeartbeats 4000000 in
/-- C3 counterexample: the 17-leaf right-nested addition body compiles
without complaint, and running the produced buffer panics with a register
index outside the 16-slot register file — the compiler enforces no bound of
16 simultaneously live temporaries. -/
theorem C3_counterexample :
    compileAndRun 99 300 testHost noIntern [] deepBody [] = some (.panic .regOOB) ∧
    (compile noIntern 99 [] deepBody).isOk = true := by
  have h2 : compileAndRun 99 300 testHost noIntern [] deepBody [] =
      some (.panic .regOOB) := by
    simp [compileAndRun, compile, initState, visit_block, visit_statement,
          visit_expression_impl, visit_term, deepBody, rightNest, litE, addE,
          get_free_register, emit, free_register, intToF32Bits, roundRatF32, bitlen,
          bitlenStep, rneDiv, le32, toId, binOpOpcode, Opcode.toByte, buildArgs, lookupAssoc,
          insertAssoc, noIntern, roundScaledF32, run_program, execute, execute_one,
          Opcode.fromByte, Process.new, Process.next_byte, Process.read_value,
          Process.read_short, Process.getReg, Process.setReg, Process.getArg,
          Process.getLocal, Process.setLocal, Process.get_return_value, Process.do_math_op,
          Process.do_compare_op, liftStep, NUM_REGISTERS, Register.default, compare,
          mathResult, f32add, f32sub, f32mul, f32div, Except.bind, Except.pure, bind, pure]
  refine ⟨h2, ?_⟩
  cases hc : compile noIntern 99 [] deepBody with
  | ok bc => simp [Except.isOk, Except.toBool]
  | error e =>
    rw [compileAndRun, hc] at h2
    cases h2

set_option maxHeartbeats 4000000 in
/-- C3 (amended): temporaries are returned to the free-list when their Rust
value is dropped and are reused — compiling two sequential statements whose
subexpressions need three registers each consumes only ids 0, 1 and 2, all
free again afterwards — but the compiler enforces no 16-register cap: the
17-leaf right-nested addition is accepted, and the 17th LOAD_IMMEDIATE it
emits (at byte offset 112) targets register 16, outside the VM's 16-slot
register file. -/
theorem C3_amended_no_register_cap :
    (match visit_block noIntern 99 reuseBody (initState []) with
     | .ok (_, s) => some (s.next_free_register, s.free_registers)
     | .error _ => none) = some (3, [2, 1, 0]) ∧
    (match compile noIntern 99 [] deepBody with
     | .ok bc => bytesAt bc 112 3
     | .error _ => []) = [Opcode.LOAD_IMMEDIATE.toByte, 16, 0x2A] := by
  constructor
  · decide
  · simp [compile, initState, visit_block, visit_statement, visit_expression_impl,
          visit_term, deepBody, rightNest, litE, addE, get_free_register, emit,
          free_register, intToF32Bits, roundRatF32, bitlen, bitlenStep, rneDiv, le32, toId,
          binOpOpcode, Opcode.toByte, buildArgs, lookupAssoc, insertAssoc, noIntern,
          roundScaledF32, bytesAt]


end Auxtools
